import Mathlib

/-
  Verification of the hopscotch hash map of src/src/hopscotch_map.h.

  Shallow embedding conventions:
  * Keys and mapped values are `Nat`; the user hash is an arbitrary `hash : Nat → Nat`;
    the key-equality predicate is the default `std::equal_to`, i.e. `Nat` equality.
  * The default template parameters are modelled: `GrowthFactor = std::ratio<2,1>`, so
    `USE_POWER_OF_TWO_MOD` is true, `bucket_for_hash` masks with `bucket_count - 1`,
    and `REHASH_SIZE_MULTIPLICATION_FACTOR` is exactly 2 (so
    `get_expand_size = ceil(bucket_count * 2.0) = 2 * bucket_count`).
  * `NeighborhoodSize` is the parameter `N`.  The metadata word
    `m_neighborhood_infos` has the width of the smallest 8/16/32/64-bit unsigned type
    holding `N + 2` bits (`smallest_type_for_min_bits`); writes are truncated to that
    width (`% 2^W`) exactly where a `static_cast<neighborhood_bitmap>` truncates.
  * The `float m_max_load_factor` is modelled as the rational `max_load_num / max_load_den`
    (default 9/10 for `0.9f`); `m_load_threshold = size_type(bucket_count()*m_max_load_factor)`
    becomes the floor `bucket_count * num / den` and `std::ceil(x / α)` becomes the
    rational ceiling.  All concrete scenarios below use sizes at which the float and
    rational computations agree.
  * `value_type = std::pair<Nat, Nat>` is nothrow-move-constructible, so the nothrow
    variant of `rehash_internal` (line 826 of the source) is the one selected by the
    template dispatch and the one embedded here.
  * Loops are embedded as structural recursion on an explicit counter that encodes the
    loop bound exactly (so that the definitions compute); each definition documents
    which loop variable the counter mirrors.  The unbounded mutual recursion
    `insert_internal` → `rehash_internal` → `insert_internal` is embedded with fuel
    through the single interpreter `exec`; a `none` result means fuel exhaustion,
    never a result of the program.
  * Reading `get_key_value()` of an empty bucket is undefined behaviour in the C++;
    the model returns the junk pair `(0, 0)` there.
  * `size_t` subtractions are translated to `Nat` subtraction; where the C++ relies on
    unsigned wrap-around making a `< N` comparison false (`ibucket_empty -
    ibucket_for_hash < NeighborhoodSize` with `ibucket_empty < ibucket_for_hash`),
    the translation conjoins the explicit `≤` guard.
-/

namespace Hopscotch

/-- `NB_RESERVED_BITS_IN_NEIGHBORHOOD` of the source (occupancy bit + overflow bit). -/
def NB_RESERVED_BITS_IN_NEIGHBORHOOD : Nat := 2

/-- `MAX_LINEAR_PROBE_SEARCH_EMPTY_BUCKET` of the source. -/
def MAX_LINEAR_PROBE_SEARCH_EMPTY_BUCKET : Nat := 4096

/-- `DEFAULT_INIT_BUCKETS_SIZE` of the source. -/
def DEFAULT_INIT_BUCKETS_SIZE : Nat := 16

/-- Bit width of `neighborhood_bitmap`: the smallest of 8/16/32/64 holding `N + 2`
bits (`smallest_type_for_min_bits<NeighborhoodSize + NB_RESERVED_BITS_IN_NEIGHBORHOOD>`). -/
def bitmapWidth (N : Nat) : Nat :=
  if N + 2 ≤ 8 then 8 else if N + 2 ≤ 16 then 16 else if N + 2 ≤ 32 then 32 else 64

/-- `hopscotch_bucket`: the metadata word `m_neighborhood_infos` plus the slot.
The slot (`m_key_value` aligned storage) is live iff bit 0 of the word is set; the
model keeps the stored pair as an `Option` next to the word. -/
structure Bucket where
  neighborhood_infos : Nat
  key_value : Option (Nat × Nat)
deriving DecidableEq, Repr

namespace Bucket

/-- A default-constructed bucket (`m_neighborhood_infos(0)`, empty slot). -/
def emptyBucket : Bucket := ⟨0, none⟩

/-- `is_empty`: bit 0 of the word is clear. -/
def is_empty (b : Bucket) : Bool := b.neighborhood_infos &&& 1 == 0

/-- `has_overflow`: bit 1 of the word. -/
def has_overflow (b : Bucket) : Bool := b.neighborhood_infos &&& 2 != 0

/-- `get_neighborhood_infos`: the word shifted right by the 2 reserved bits. -/
def get_neighborhood_infos (b : Bucket) : Nat :=
  b.neighborhood_infos >>> NB_RESERVED_BITS_IN_NEIGHBORHOOD

/-- `set_overflow`.  `~2` in a `W`-bit word is `2^W - 3`. -/
def set_overflow (W : Nat) (b : Bucket) (f : Bool) : Bucket :=
  if f then { b with neighborhood_infos := b.neighborhood_infos ||| 2 }
  else { b with neighborhood_infos := b.neighborhood_infos &&& (2 ^ W - 3) }

/-- `set_is_empty`.  `~1` in a `W`-bit word is `2^W - 2`. -/
def set_is_empty (W : Nat) (b : Bucket) (e : Bool) : Bucket :=
  if e then { b with neighborhood_infos := b.neighborhood_infos &&& (2 ^ W - 2) }
  else { b with neighborhood_infos := b.neighborhood_infos ||| 1 }

/-- `toggle_neighbor_presence`: xor bit `ineighbor + 2`, truncated to the word
width by the `static_cast<neighborhood_bitmap>`. -/
def toggle_neighbor_presence (W : Nat) (b : Bucket) (ineighbor : Nat) : Bucket :=
  { b with neighborhood_infos :=
      (b.neighborhood_infos ^^^ (1 <<< (ineighbor + NB_RESERVED_BITS_IN_NEIGHBORHOOD))) % 2 ^ W }

/-- `check_neighbor_presence`. -/
def check_neighbor_presence (b : Bucket) (ineighbor : Nat) : Bool :=
  (b.neighborhood_infos >>> (ineighbor + NB_RESERVED_BITS_IN_NEIGHBORHOOD)) &&& 1 == 1

/-- `get_key_value`; undefined behaviour (here: junk `(0,0)`) on an empty bucket. -/
def get_key_value (b : Bucket) : Nat × Nat := b.key_value.getD (0, 0)

/-- `set_key_value`: construct the pair into the slot; mark occupied if it was empty. -/
def set_key_value (W : Nat) (b : Bucket) (kv : Nat × Nat) : Bucket :=
  if b.is_empty then set_is_empty W { b with key_value := some kv } false
  else { b with key_value := some kv }

/-- `remove_key_value`. -/
def remove_key_value (W : Nat) (b : Bucket) : Bucket :=
  if b.is_empty then b else set_is_empty W { b with key_value := none } true

/-- `hopscotch_bucket::clear`: destroy the pair and zero the whole metadata word. -/
def clear (_b : Bucket) : Bucket := ⟨0, none⟩

end Bucket

/-- `swap_key_value_with_empty_bucket src dst`: move the pair of `src` into the empty
bucket `dst`; returns the updated `(src, dst)`.  No-op when `src` is empty. -/
def swap_key_value_with_empty_bucket (W : Nat) (src dst : Bucket) : Bucket × Bucket :=
  if src.is_empty then (src, dst)
  else (Bucket.set_is_empty W { src with key_value := none } true,
        Bucket.set_is_empty W { dst with key_value := src.key_value } false)

/-- The container state: `m_buckets`, `m_overflow_elements`, `m_nb_elements`,
the max load factor as a rational, and `m_load_threshold`.  The hash function and
the neighborhood size are parameters of the operations (they are immutable members
in the C++). -/
structure HMap where
  buckets : List Bucket
  overflow_elements : List (Nat × Nat)
  nb_elements : Nat
  max_load_num : Nat
  max_load_den : Nat
  load_threshold : Nat
deriving DecidableEq, Repr

/-- Result position of a lookup/insert: either a bucket index or an index into the
overflow list.  `none` at the call sites models the `end()` iterator. -/
inductive Pos where
  | bucket (i : Nat)
  | overflow (i : Nat)
deriving DecidableEq, Repr

/-- The `round_up_to_power_of_two` loop `while(power < value) power <<= 1`; `power`
is carried as `p1 + 1` (it starts at 1 and doubling keeps it positive), and the
counter bounds the number of doublings (`value` many always suffice since `power`
grows by at least one per step). -/
def round_up_go : Nat → Nat → Nat → Nat
  | 0, _, p1 => p1 + 1
  | fuel + 1, value, p1 => if p1 + 1 < value then round_up_go fuel value (2 * p1 + 1) else p1 + 1

/-- `round_up_to_power_of_two`. -/
def round_up_to_power_of_two (value : Nat) : Nat := round_up_go value value 0

/-- `bucket_count()`: the bucket array has `NeighborhoodSize - 1` padding buckets at
the tail (`m_buckets.size() - NeighborhoodSize + 1`; the subtraction never underflows
since the array always holds at least `1 + N - 1` buckets). -/
def bucket_count (N : Nat) (m : HMap) : Nat := (m.buckets.length - N) + 1

/-- `bucket_for_hash(hash)` with the power-of-two modulus (`USE_POWER_OF_TWO_MOD`). -/
def bucket_for_hash (N : Nat) (m : HMap) (h : Nat) : Nat := h &&& (bucket_count N m - 1)

/-- `bucket_for_hash(hash, nb_buckets)`. -/
def bucket_for_hash_nb (h nb : Nat) : Nat := h &&& (nb - 1)

/-- `get_expand_size()` = `ceil(bucket_count() * REHASH_SIZE_MULTIPLICATION_FACTOR)`
with the default growth factor 2 (exact). -/
def get_expand_size (N : Nat) (m : HMap) : Nat := 2 * bucket_count N m

/-- `m_buckets[i]` (in-range at every call site reached by the program). -/
def getBucket (m : HMap) (i : Nat) : Bucket := m.buckets.getD i Bucket.emptyBucket

/-- Write `m_buckets[i]`. -/
def setBucket (m : HMap) (i : Nat) (b : Bucket) : HMap :=
  { m with buckets := m.buckets.set i b }

/-- The private constructor: round the requested count up to a power of two
(`USE_POWER_OF_TWO_MOD`), resize to `count + NeighborhoodSize - 1` empty buckets,
then `max_load_factor(ml)` sets `m_load_threshold = size_type(bucket_count() * ml)`. -/
def mkHopscotchMap (N : Nat) (bucket_count_req anum aden : Nat) : HMap :=
  let B := round_up_to_power_of_two bucket_count_req
  { buckets := List.replicate (B + N - 1) Bucket.emptyBucket
    overflow_elements := []
    nb_elements := 0
    max_load_num := anum
    max_load_den := aden
    load_threshold := B * anum / aden }

/-- The public `max_load_factor(ml)` setter (the float `ml` as a rational). -/
def set_max_load_factor (N : Nat) (m : HMap) (num den : Nat) : HMap :=
  { m with max_load_num := num, max_load_den := den,
           load_threshold := bucket_count N m * num / den }

/-- The linear scan of `find_empty_bucket`: `for(; i < limit; i++)`; the counter is
exactly `limit - i`, so counter `0` is the loop exit returning `m_buckets.size()`. -/
def find_empty_go (m : HMap) : Nat → Nat → Nat
  | 0, _ => m.buckets.length
  | fuel + 1, i => if (getBucket m i).is_empty then i else find_empty_go m fuel (i + 1)

/-- `find_empty_bucket`: first empty bucket in
`[start, min(start + MAX_LINEAR_PROBE_SEARCH_EMPTY_BUCKET, size))`, else `size`. -/
def find_empty_bucket (m : HMap) (ibucket_start : Nat) : Nat :=
  find_empty_go m
    (min (ibucket_start + MAX_LINEAR_PROBE_SEARCH_EMPTY_BUCKET) m.buckets.length - ibucket_start)
    ibucket_start

/-- The scanning loop of `find_in_buckets`: `while(neighborhood_infos != 0)`, walking
the bitmap from the least significant bit (`>>= 1` is `/ 2`) and comparing keys at
set bits.  The counter bounds the iterations; the initial bitmap value always
suffices since the bitmap strictly decreases. -/
def find_in_buckets_go (m : HMap) (key : Nat) : Nat → Nat → Nat → Option Nat
  | 0, _, _ => none
  | fuel + 1, it, infos =>
    if infos = 0 then none
    else if infos &&& 1 == 1 && (getBucket m it).get_key_value.1 == key then some it
    else find_in_buckets_go m key fuel (it + 1) (infos / 2)

/-- `find_in_buckets`: `none` models the returned `m_buckets.end()`. -/
def find_in_buckets (m : HMap) (key : Nat) (it_bucket : Nat) : Option Nat :=
  find_in_buckets_go m key (getBucket m it_bucket).get_neighborhood_infos it_bucket
    (getBucket m it_bucket).get_neighborhood_infos

/-- `find_internal`: neighborhood scan, then the overflow list guarded by the
overflow flag; `none` models the `end()` iterator (including the `find_if` miss). -/
def find_internal (m : HMap) (key : Nat) (it_bucket : Nat) : Option Pos :=
  match find_in_buckets m key it_bucket with
  | some j => some (.bucket j)
  | none =>
    if !(getBucket m it_bucket).has_overflow then none
    else
      match m.overflow_elements.findIdx? (fun (v : Nat × Nat) => v.1 == key) with
      | some idx => some (.overflow idx)
      | none => none

/-- The public `find`. -/
def find (hash : Nat → Nat) (N : Nat) (m : HMap) (key : Nat) : Option Pos :=
  find_internal m key (bucket_for_hash N m (hash key))

/-- The mapped value stored at a position. -/
def valueAt (m : HMap) : Pos → Option Nat
  | .bucket j => ((getBucket m j).key_value).map (·.2)
  | .overflow i => (m.overflow_elements.get? i).map (·.2)

/-- `at`: `find`, then `throw std::out_of_range` (modelled as `none`) when absent,
otherwise the mapped value of the found entry. -/
def at? (hash : Nat → Nat) (N : Nat) (m : HMap) (key : Nat) : Option Nat :=
  match find hash N m key with
  | none => none
  | some p => valueAt m p

/-- `count`. -/
def count (hash : Nat → Nat) (N : Nat) (m : HMap) (key : Nat) : Nat :=
  match find hash N m key with
  | none => 0
  | some _ => 1

/-- `erase_from_bucket pos i`: destroy the pair at `pos`, toggle (clear) bit
`pos - i` of the home bucket `i`, decrement `m_nb_elements`. -/
def erase_from_bucket (N : Nat) (m : HMap) (pos ibucket_for_hash : Nat) : HMap :=
  let m1 := setBucket m pos ((getBucket m pos).remove_key_value (bitmapWidth N))
  let m2 := setBucket m1 ibucket_for_hash
    ((getBucket m1 ibucket_for_hash).toggle_neighbor_presence (bitmapWidth N)
      (pos - ibucket_for_hash))
  { m2 with nb_elements := m2.nb_elements - 1 }

/-- `find_in_overflow_from_bucket` (always called from `begin()`): index of the
first overflow entry whose home bucket equals `original_bucket_for_hash`. -/
def find_in_overflow_from_bucket (hash : Nat → Nat) (N : Nat) (m : HMap)
    (original_bucket_for_hash : Nat) : Option Nat :=
  m.overflow_elements.findIdx?
    (fun (v : Nat × Nat) => bucket_for_hash N m (hash v.1) == original_bucket_for_hash)

/-- `erase_from_overflow`: unlink the node, decrement `m_nb_elements`, and clear the
home bucket's overflow flag when no other overflow entry shares that home. -/
def erase_from_overflow (hash : Nat → Nat) (N : Nat) (m : HMap)
    (pos ibucket_for_hash : Nat) : HMap :=
  let m1 := { m with overflow_elements := m.overflow_elements.eraseIdx pos,
                     nb_elements := m.nb_elements - 1 }
  match find_in_overflow_from_bucket hash N m1 ibucket_for_hash with
  | some _ => m1
  | none =>
      setBucket m1 ibucket_for_hash
        ((getBucket m1 ibucket_for_hash).set_overflow (bitmapWidth N) false)

/-- The public `erase(const key_type&)`: returns the updated map and 0 or 1. -/
def erase (hash : Nat → Nat) (N : Nat) (m : HMap) (key : Nat) : HMap × Nat :=
  let i := bucket_for_hash N m (hash key)
  match find_in_buckets m key i with
  | some j => (erase_from_bucket N m j i, 1)
  | none =>
    if (getBucket m i).has_overflow then
      match m.overflow_elements.findIdx? (fun (v : Nat × Nat) => key == v.1) with
      | some idx => (erase_from_overflow hash N m idx i, 1)
      | none => (m, 0)
    else (m, 0)

/-- The scan of `will_neighborhood_change_on_rehash` over
`ibucket < size && ibucket - istart < N`; the counter is exactly
`N - (ibucket - istart)`, so counter `0` is the `ibucket - istart < N` exit. -/
def will_change_go (hash : Nat → Nat) (N : Nat) (m : HMap) : Nat → Nat → Bool
  | 0, _ => false
  | fuel + 1, ibucket =>
    if ibucket < m.buckets.length then
      if bucket_for_hash N m (hash (getBucket m ibucket).get_key_value.1) ≠
         bucket_for_hash_nb (hash (getBucket m ibucket).get_key_value.1) (get_expand_size N m)
      then true
      else will_change_go hash N m fuel (ibucket + 1)
    else false

/-- `will_neighborhood_change_on_rehash`. -/
def will_neighborhood_change_on_rehash (hash : Nat → Nat) (N : Nat) (m : HMap)
    (ibucket_neighborhood_check : Nat) : Bool :=
  will_change_go hash N m N ibucket_neighborhood_check

/-- `insert_in_bucket`: place the pair in the empty bucket `ibucket_empty`, set
(toggle) bit `ibucket_empty - ibucket_for_hash` of the home bucket, `m_nb_elements++`. -/
def insert_in_bucket (N : Nat) (m : HMap) (kv : Nat × Nat)
    (ibucket_empty ibucket_for_hash : Nat) : HMap :=
  let m1 := setBucket m ibucket_empty
    ((getBucket m ibucket_empty).set_key_value (bitmapWidth N) kv)
  let m2 := setBucket m1 ibucket_for_hash
    ((getBucket m1 ibucket_for_hash).toggle_neighbor_presence (bitmapWidth N)
      (ibucket_empty - ibucket_for_hash))
  { m2 with nb_elements := m2.nb_elements + 1 }

/-- The inner loop of `swap_empty_bucket_closer`:
`while(neighborhood_infos != 0 && to_swap < ibucket_empty)`, returning the position
of the first set bit.  The counter is exactly `ibucket_empty - to_swap`, so counter
`0` is the `to_swap < ibucket_empty` exit. -/
def hop_bits_go : Nat → Nat → Nat → Option Nat
  | 0, _, _ => none
  | fuel + 1, to_swap, infos =>
    if infos = 0 then none
    else if infos &&& 1 == 1 then some to_swap
    else hop_bits_go fuel (to_swap + 1) (infos / 2)

/-- The outer loop of `swap_empty_bucket_closer` over candidate homes
`to_check ∈ [neighborhood_start, ibucket_empty)`; on a hit at `to_swap`, move the
entry at `to_swap` into the empty bucket `e` and toggle bits `e - to_check` and
`to_swap - to_check` of the candidate's bitmap.  The counter is exactly
`e - to_check`, so counter `0` is the loop exit (failure). -/
def swap_closer_go (N : Nat) (m : HMap) : Nat → Nat → Nat → Option (HMap × Nat)
  | 0, _, _ => none
  | fuel + 1, to_check, e =>
    match hop_bits_go (fuel + 1) to_check (getBucket m to_check).get_neighborhood_infos with
    | some to_swap =>
      let p := swap_key_value_with_empty_bucket (bitmapWidth N)
        (getBucket m to_swap) (getBucket m e)
      let m1 := setBucket (setBucket m to_swap p.1) e p.2
      let m2 := setBucket m1 to_check
        ((getBucket m1 to_check).toggle_neighbor_presence (bitmapWidth N) (e - to_check))
      let m3 := setBucket m2 to_check
        ((getBucket m2 to_check).toggle_neighbor_presence (bitmapWidth N) (to_swap - to_check))
      some (m3, to_swap)
    | none => swap_closer_go N m fuel (to_check + 1) e

/-- `swap_empty_bucket_closer`: the source asserts `ibucket_empty ≥ NeighborhoodSize`
(line 1037), so `neighborhood_start = ibucket_empty - NeighborhoodSize + 1` does not
underflow at any reached call; the outer counter is
`ibucket_empty - neighborhood_start`. -/
def swap_empty_bucket_closer (N : Nat) (m : HMap) (ibucket_empty : Nat) :
    Option (HMap × Nat) :=
  swap_closer_go N m (ibucket_empty - (ibucket_empty - N + 1))
    (ibucket_empty - N + 1) ibucket_empty

/-- The `do { if in range, insert } while(swap_empty_bucket_closer(...))` loop of
`insert_internal` (lines 947-955).  `inl (m', e)` is the successful
`insert_in_bucket` at the final empty bucket `e`; `inr (m', e')` is the state after
the failed displacement attempts.  The `size_t` test `ibucket_empty -
ibucket_for_hash < NeighborhoodSize` is `i ≤ e ∧ e - i < N` (unsigned wrap makes it
false for `e < i`).  Each successful swap strictly decreases the empty-bucket index,
so the counter `e + 1` always suffices. -/
def insert_loop_go (N : Nat) : Nat → HMap → (Nat × Nat) → Nat → Nat →
    ((HMap × Nat) ⊕ (HMap × Nat))
  | 0, m, _, _, e => Sum.inr (m, e)
  | fuel + 1, m, kv, i, e =>
    if i ≤ e ∧ e - i < N then Sum.inl (insert_in_bucket N m kv e i, e)
    else
      match swap_empty_bucket_closer N m e with
      | some me => insert_loop_go N fuel me.1 kv i me.2
      | none => Sum.inr (m, e)

/-- The displacement loop of `insert_internal` with its sufficient counter. -/
def insert_loop (N : Nat) (m : HMap) (kv : Nat × Nat) (i e : Nat) :
    ((HMap × Nat) ⊕ (HMap × Nat)) :=
  insert_loop_go N (e + 1) m kv i e

/-- The flag-fixing loop at the end of the nothrow `rehash_internal` (lines 855-858):
set the overflow flag of the home bucket of every (spliced) overflow entry. -/
def set_overflow_flags (hash : Nat → Nat) (N : Nat) (m : HMap) :
    List (Nat × Nat) → HMap
  | [] => m
  | kv :: rest =>
      set_overflow_flags hash N
        (setBucket m (bucket_for_hash N m (hash kv.1))
          ((getBucket m (bucket_for_hash N m (hash kv.1))).set_overflow (bitmapWidth N) true))
        rest

/-- A pending call of the mutually recursive trio `insert_internal` (two-argument
form, lines 936-974), `rehash_internal` (nothrow variant, lines 826-862) and its
per-bucket re-insertion loop (lines 841-848). -/
inductive Req where
  | ins (m : HMap) (kv : Nat × Nat) (ibucket_for_hash : Nat)
  | reh (m : HMap) (icount : Nat)
  | rei (tmp : HMap) (bs : List Bucket)

/-- The fueled interpreter of the mutual recursion.  `inl` answers an `ins` request
(the `std::pair<iterator, bool>` of `insert_internal`); `inr` answers a `reh` or
`rei` request (the rebuilt map).  `none` is fuel exhaustion.

`ins`: load-factor check and possible growth rehash (lines 940-943); linear probe
for an empty bucket (line 945); the displacement loop (lines 947-955); then either
the overflow fallback guarded by `will_neighborhood_change_on_rehash` (lines
959-965) or a growth rehash and retry (lines 970-973).

`rei`: skip empty buckets; each non-empty bucket's pair is re-inserted through
`insert_internal` at its home in the new map (lines 841-848).

`reh`: build the fresh map (line 839, the private constructor), run `rei` over the
old bucket array, and when the old overflow list is non-empty, swap it wholesale
into the new map (line 852; whatever the new map accumulated in its own overflow
list is discarded — the source asserts that list is empty at line 850), add its
length to `m_nb_elements` (line 853) and set the overflow flag of the home bucket of
each spliced entry (lines 855-858). -/
def exec (hash : Nat → Nat) (N : Nat) : Nat → Req → Option ((HMap × Pos × Bool) ⊕ HMap)
  | 0, _ => none
  | fuel + 1, .ins m0 kv ibucket_for_hash =>
    let step2 : HMap → Nat → Option ((HMap × Pos × Bool) ⊕ HMap) := fun m i =>
      let e := find_empty_bucket m i
      if e < m.buckets.length then
        match insert_loop N m kv i e with
        | Sum.inl me => some (Sum.inl (me.1, .bucket me.2, true))
        | Sum.inr me =>
          if ! will_neighborhood_change_on_rehash hash N me.1 i then
            let mo := { me.1 with overflow_elements := me.1.overflow_elements ++ [kv] }
            let mo2 := setBucket mo i ((getBucket mo i).set_overflow (bitmapWidth N) true)
            some (Sum.inl ({ mo2 with nb_elements := mo2.nb_elements + 1 },
                  .overflow me.1.overflow_elements.length, true))
          else
            match exec hash N fuel (.reh me.1 (get_expand_size N me.1)) with
            | some (Sum.inr m2) => exec hash N fuel (.ins m2 kv (bucket_for_hash N m2 (hash kv.1)))
            | _ => none
      else
        match exec hash N fuel (.reh m (get_expand_size N m)) with
        | some (Sum.inr m2) => exec hash N fuel (.ins m2 kv (bucket_for_hash N m2 (hash kv.1)))
        | _ => none
    if m0.nb_elements + 1 > m0.load_threshold then
      match exec hash N fuel (.reh m0 (get_expand_size N m0)) with
      | some (Sum.inr m') => step2 m' (bucket_for_hash N m' (hash kv.1))
      | _ => none
    else step2 m0 ibucket_for_hash
  | _ + 1, .rei tmp [] => some (Sum.inr tmp)
  | fuel + 1, .rei tmp (b :: rest) =>
    if b.is_empty then exec hash N fuel (.rei tmp rest)
    else
      match exec hash N fuel
        (.ins tmp b.get_key_value (bucket_for_hash N tmp (hash b.get_key_value.1))) with
      | some (Sum.inl r) => exec hash N fuel (.rei r.1 rest)
      | _ => none
  | fuel + 1, .reh m icount =>
    match exec hash N fuel
      (.rei (mkHopscotchMap N icount m.max_load_num m.max_load_den) m.buckets) with
    | some (Sum.inr tmp) =>
      if m.overflow_elements.isEmpty then some (Sum.inr tmp)
      else
        let tmp2 := { tmp with overflow_elements := m.overflow_elements,
                               nb_elements := tmp.nb_elements + m.overflow_elements.length }
        some (Sum.inr (set_overflow_flags hash N tmp2 m.overflow_elements))
    | _ => none

/-- The two-argument `insert_internal(P&&, std::size_t)` through the interpreter. -/
def insert_internal (hash : Nat → Nat) (N : Nat) (fuel : Nat) (m : HMap)
    (kv : Nat × Nat) (ibucket_for_hash : Nat) : Option (HMap × Pos × Bool) :=
  match exec hash N fuel (.ins m kv ibucket_for_hash) with
  | some (Sum.inl r) => some r
  | _ => none

/-- The nothrow `rehash_internal(size_type)` through the interpreter. -/
def rehash_internal (hash : Nat → Nat) (N : Nat) (fuel : Nat) (m : HMap)
    (icount : Nat) : Option HMap :=
  match exec hash N fuel (.reh m icount) with
  | some (Sum.inr m') => some m'
  | _ => none

/-- The one-argument `insert_internal(P&&)` = the public `insert` (lines 587-593,
922-934): duplicate check through `find_internal`, then the placement path. -/
def insert (hash : Nat → Nat) (N : Nat) (fuel : Nat) (m : HMap) (value : Nat × Nat) :
    Option (HMap × Pos × Bool) :=
  let ibucket_for_hash := bucket_for_hash N m (hash value.1)
  match find_internal m value.1 ibucket_for_hash with
  | some p => some (m, p, false)
  | none => insert_internal hash N fuel m value ibucket_for_hash

/-- `try_emplace` (lines 606-614, 905-920): duplicate check through `find_internal`,
then insert the pair built from the key and the constructed value. -/
def try_emplace (hash : Nat → Nat) (N : Nat) (fuel : Nat) (m : HMap) (k v : Nat) :
    Option (HMap × Pos × Bool) :=
  let ibucket_for_hash := bucket_for_hash N m (hash k)
  match find_internal m k ibucket_for_hash with
  | some p => some (m, p, false)
  | none => insert_internal hash N fuel m (k, v) ibucket_for_hash

/-- `operator[]` (lines 697-705): `find`; when absent, insert the key with a
default-constructed mapped value (`T()` is `0`). -/
def op_index (hash : Nat → Nat) (N : Nat) (fuel : Nat) (m : HMap) (key : Nat) :
    Option HMap :=
  match find hash N m key with
  | some _ => some m
  | none => (insert hash N fuel m (key, 0)).map (·.1)

/-- The public `rehash(count)` (lines 759-762):
`count = max(count, ceil(size() / max_load_factor()))`, then `rehash_internal`. -/
def rehash (hash : Nat → Nat) (N : Nat) (fuel : Nat) (m : HMap) (icount : Nat) :
    Option HMap :=
  rehash_internal hash N fuel m
    (max icount ((m.nb_elements * m.max_load_den + m.max_load_num - 1) / m.max_load_num))

/-- The public `reserve(count)` (lines 764-766): `rehash(ceil(count / max_load_factor()))`. -/
def reserve (hash : Nat → Nat) (N : Nat) (fuel : Nat) (m : HMap) (icount : Nat) :
    Option HMap :=
  rehash hash N fuel m ((icount * m.max_load_den + m.max_load_num - 1) / m.max_load_num)

/-- The public `clear()` (lines 578-585): clear every bucket (zeroing its whole
metadata word), clear the overflow list, zero `m_nb_elements`.  The bucket array
itself is not resized. -/
def clear (m : HMap) : HMap :=
  { m with buckets := m.buckets.map Bucket.clear,
           overflow_elements := [],
           nb_elements := 0 }

/-- `size()`. -/
def size (m : HMap) : Nat := m.nb_elements

/-- The public constructor `hopscotch_map(bucket_count)` with the default
`DEFAULT_MAX_LOAD_FACTOR = 0.9f` (= 9/10). -/
def mkDefault (N : Nat) (bucket_count_req : Nat) : HMap :=
  mkHopscotchMap N bucket_count_req 9 10

/-- States reachable from a freshly constructed container by the public mutating
operations (`insert`, `try_emplace`, `operator[]`, `erase`, `rehash`, `reserve`,
`clear`, and the `max_load_factor` setter).  A `some` result of a fueled operation
means the C++ recursion terminated with that result. -/
inductive Reachable (hash : Nat → Nat) (N : Nat) : HMap → Prop where
  | init (bucket_count_req : Nat) : Reachable hash N (mkDefault N bucket_count_req)
  | set_mlf {m : HMap} (num den : Nat) :
      Reachable hash N m → Reachable hash N (set_max_load_factor N m num den)
  | insert_step {m m' : HMap} {p : Pos} {bb : Bool} (fuel : Nat) (kv : Nat × Nat) :
      Reachable hash N m → insert hash N fuel m kv = some (m', p, bb) →
      Reachable hash N m'
  | try_emplace_step {m m' : HMap} {p : Pos} {bb : Bool} (fuel : Nat) (k v : Nat) :
      Reachable hash N m → try_emplace hash N fuel m k v = some (m', p, bb) →
      Reachable hash N m'
  | op_index_step {m m' : HMap} (fuel : Nat) (key : Nat) :
      Reachable hash N m → op_index hash N fuel m key = some m' →
      Reachable hash N m'
  | erase_step {m : HMap} (key : Nat) :
      Reachable hash N m → Reachable hash N (erase hash N m key).1
  | clear_step {m : HMap} :
      Reachable hash N m → Reachable hash N (clear m)
  | rehash_step {m m' : HMap} (fuel icount : Nat) :
      Reachable hash N m → rehash hash N fuel m icount = some m' →
      Reachable hash N m'
  | reserve_step {m m' : HMap} (fuel icount : Nat) :
      Reachable hash N m → reserve hash N fuel m icount = some m' →
      Reachable hash N m'

/-- Insert, keeping the old map on fuel exhaustion (scenario plumbing; every
concrete scenario below certifies separately that its operations returned `some`). -/
def insertD (hash : Nat → Nat) (N fuel : Nat) (m : HMap) (kv : Nat × Nat) : HMap :=
  match insert hash N fuel m kv with
  | some r => r.1
  | none => m

/-- All pairs stored in the container: the live bucket slots in index order,
followed by the overflow list. -/
def contents (m : HMap) : List (Nat × Nat) :=
  m.buckets.filterMap (·.key_value) ++ m.overflow_elements

/-- The pathological constant hash of the spec's scenario 2. -/
def constZeroHash : Nat → Nat := fun _ => 0

/-- The identity hash of the spec's scenarios 3 and 5. -/
def idHash : Nat → Nat := fun k => k

/-- An adversarial (but perfectly legal) user hash: keys 1,2 hash to 1; keys 3,4
hash to 9; keys 5,6,7 hash to 5; every other key hashes to 2. -/
def bugHash : Nat → Nat := fun k =>
  if k = 1 then 1 else if k = 2 then 1 else if k = 3 then 9 else if k = 4 then 9
  else if k = 5 then 5 else if k = 6 then 5 else if k = 7 then 5 else 2

/-- `hopscotch_map<.., NeighborhoodSize = 2>` with `bucket_count = 16` and `bugHash`,
after inserting `(k, 10k)` for `k = 1..7`: keys 1,2 sit in buckets 1,2; keys 3,4 in
buckets 9,10; keys 5,6 in buckets 5,6; key 7 in the overflow list (bucket 5's
neighborhood is full and a growth rehash would not move keys 5,6). -/
def bugBefore : HMap :=
  (List.range 7).foldl (fun m k => insertD bugHash 2 9 m (k + 1, (k + 1) * 10))
    (mkDefault 2 16)

/-- `bugBefore` after the public `rehash(1)` (which rehashes to
`max(1, ceil(7 / 0.9)) = 8` logical buckets).  During the re-insertion, keys 3 and 4
(hash 9, home `9 mod 8 = 1`) no longer fit near bucket 1 and go to the temporary
map's overflow list — the list the source asserts empty at line 850 — and the
wholesale swap of line 852 then throws them away. -/
def bugAfter : HMap := (rehash bugHash 2 20 bugBefore 1).getD bugBefore

/-- Spec scenario 2 state: `NeighborhoodSize = 62`, constant hash 0,
`bucket_count = 128` (so no load-factor rehash interferes: the threshold is 115),
after inserting `(k, k)` for `k = 0..61`. -/
def full62 : HMap :=
  (List.range 62).foldl (fun m k => insertD constZeroHash 62 3 m (k, k))
    (mkDefault 62 128)

/-- Spec scenario 5 base: `NeighborhoodSize = 4`, identity hash, `bucket_count = 4`,
with `max_load_factor` raised to `1.5` (threshold 6) so that five keys fit without a
growth rehash (with the default `0.9` the fourth insert already rehashes to 8
buckets and the fifth key `4` would land in the then-empty bucket 4 with no
displacement at all). -/
def hop5Base : HMap := set_max_load_factor 4 (mkDefault 4 4) 3 2

/-- `hop5Base` after inserting `(k, k)` for `k = 0..3`: each key `k` sits in bucket
`k` with bit 0 of its own neighborhood bitmap set. -/
def hop5After4 : HMap :=
  (List.range 4).foldl (fun m k => insertD idHash 4 9 m (k, k)) hop5Base

/-- `hop5After4` after inserting `(4, 40)`: key 4 has home `4 mod 4 = 0`; the first
empty bucket is 4, hop-closer displaces the entry of bucket 1 into bucket 4, and the
new pair is then placed in bucket 1 (setting bit 1 of bucket 0's bitmap). -/
def hop5After5 : HMap := insertD idHash 4 9 hop5After4 (4, 40)

/-- The structural invariant of the bucket array (spec I1/P1/P6): `N` is a legal
neighborhood size, the logical bucket count is a power of two with `N - 1` padding
buckets, every metadata word fits in `N + 2` bits, the occupancy bit mirrors the
slot, every set neighborhood bit points at a live in-range entry whose home is the
bit's owner, and every live entry at `j` has `home ≤ j < home + N` with bit
`j - home` of its home's bitmap set. -/
structure Inv (hash : Nat → Nat) (N : Nat) (m : HMap) : Prop where
  nsize : 1 ≤ N
  nmax : N ≤ 62
  pow : ∃ p, bucket_count N m = 2 ^ p
  len_eq : m.buckets.length = bucket_count N m + (N - 1)
  bits : ∀ i, (getBucket m i).neighborhood_infos < 2 ^ (N + 2)
  occ : ∀ i, (getBucket m i).neighborhood_infos.testBit 0 = (getBucket m i).key_value.isSome
  sound : ∀ i off, (getBucket m i).neighborhood_infos.testBit (off + 2) = true →
      off < N ∧ i + off < m.buckets.length ∧
      ∃ kv, (getBucket m (i + off)).key_value = some kv
        ∧ bucket_for_hash N m (hash kv.1) = i
  complete : ∀ j kv, (getBucket m j).key_value = some kv →
      bucket_for_hash N m (hash kv.1) ≤ j
        ∧ j - bucket_for_hash N m (hash kv.1) < N
        ∧ (getBucket m (bucket_for_hash N m (hash kv.1))).neighborhood_infos.testBit
            (j - bucket_for_hash N m (hash kv.1) + 2) = true

/-- The invariants a valid container satisfies between operations, as far as the
lookup-facing claims need them: the structural invariant, the overflow flag of the
home bucket of every overflow entry (the set-if direction of spec I2), and
distinct keys (spec I3). -/
structure WF (hash : Nat → Nat) (N : Nat) (m : HMap) : Prop where
  inv : Inv hash N m
  flag_complete : ∀ kv ∈ m.overflow_elements,
      (getBucket m (bucket_for_hash N m (hash kv.1))).neighborhood_infos.testBit 1 = true
  nodup : ((contents m).map Prod.fst).Nodup

/-- Modelled from the spec, §4.3 Lookup, for the refinement claim: "Given key `k`,
compute `i = home(k)`. Read bucket `i`'s neighborhood bitmap. For each bit `b` that
is set (iterate from LSB to MSB), compare `k` against the key stored at bucket
`i + b`; on match, return that position. If no match and bucket `i`'s overflow flag
is clear, report absent. Otherwise scan the overflow list linearly and compare with
`eq`; return the first match or absent." -/
def findSpec (hash : Nat → Nat) (N : Nat) (m : HMap) (key : Nat) : Option Pos :=
  let i := bucket_for_hash N m (hash key)
  match (List.range N).find? (fun b =>
      (getBucket m i).check_neighbor_presence b
        && (getBucket m (i + b)).get_key_value.1 == key) with
  | some b => some (.bucket (i + b))
  | none =>
    if !(getBucket m i).has_overflow then none
    else
      match m.overflow_elements.findIdx? (fun (v : Nat × Nat) => v.1 == key) with
      | some idx => some (.overflow idx)
      | none => none

/-- The precondition under which a pending request of the interpreter preserves the
structural invariant: an `insert_internal` call carries a valid map and the home
bucket of its key (as at every call site of the source); a rehash builds its
temporary map from scratch; a re-insertion loop carries the valid temporary map. -/
def ReqOK (hash : Nat → Nat) (N : Nat) : Req → Prop
  | .ins m kv i => Inv hash N m ∧ bucket_for_hash N m (hash kv.1) = i
  | .reh _ _ => True
  | .rei tmp _ => Inv hash N tmp

/-- The invariant on an interpreter answer. -/
def ResOK (hash : Nat → Nat) (N : Nat) : (HMap × Pos × Bool) ⊕ HMap → Prop
  | Sum.inl r => Inv hash N r.1
  | Sum.inr m' => Inv hash N m'

/-- `setBucket` only touches the bucket array. -/
theorem setBucket_overflow_elements (m : HMap) (i : Nat) (b : Bucket) :
    (setBucket m i b).overflow_elements = m.overflow_elements := rfl

/-- `setBucket` only touches the bucket array. -/
theorem setBucket_nb_elements (m : HMap) (i : Nat) (b : Bucket) :
    (setBucket m i b).nb_elements = m.nb_elements := rfl

/-- `setBucket` keeps the array length. -/
theorem setBucket_length (m : HMap) (i : Nat) (b : Bucket) :
    (setBucket m i b).buckets.length = m.buckets.length := by
  simp [setBucket]

/-- Reading back a written bucket. -/
theorem getBucket_setBucket_self {m : HMap} {i : Nat} (b : Bucket)
    (h : i < m.buckets.length) : getBucket (setBucket m i b) i = b := by
  simp [getBucket, setBucket, List.getD_eq_getElem?_getD, List.getElem?_set_self h]

/-- Reading an untouched bucket. -/
theorem getBucket_setBucket_ne {i j : Nat} (m : HMap) (b : Bucket) (h : i ≠ j) :
    getBucket (setBucket m i b) j = getBucket m j := by
  simp [getBucket, setBucket, List.getD_eq_getElem?_getD, List.getElem?_set_ne h]

/-- Out-of-range reads give the default empty bucket. -/
theorem getBucket_out_of_range {m : HMap} {i : Nat} (h : m.buckets.length ≤ i) :
    getBucket m i = Bucket.emptyBucket := by
  simp [getBucket, List.getD_eq_getElem?_getD, List.getElem?_eq_none h]

/-- In-range reads are members of the bucket array. -/
theorem getBucket_mem {m : HMap} {i : Nat} (h : i < m.buckets.length) :
    getBucket m i ∈ m.buckets := by
  simp only [getBucket, List.getD_eq_getElem?_getD, List.getElem?_eq_getElem h,
    Option.getD_some]
  exact List.getElem_mem h

/-- A bucket holding a pair is in range. -/
theorem lt_length_of_key_value {m : HMap} {j : Nat} {kv : Nat × Nat}
    (h : (getBucket m j).key_value = some kv) : j < m.buckets.length := by
  by_contra hj
  rw [getBucket_out_of_range (Nat.le_of_not_lt hj)] at h
  exact Option.noConfusion h

/-- A bucket with a set bit somewhere in its word is in range. -/
theorem lt_length_of_testBit {m : HMap} {i k : Nat}
    (h : (getBucket m i).neighborhood_infos.testBit k = true) : i < m.buckets.length := by
  by_contra hi
  rw [getBucket_out_of_range (Nat.le_of_not_lt hi)] at h
  simp [Bucket.emptyBucket, Nat.zero_testBit] at h

/-- `is_empty` is the complement of occupancy bit 0. -/
theorem is_empty_eq_not_testBit (b : Bucket) :
    b.is_empty = ! b.neighborhood_infos.testBit 0 := by
  simp only [Bucket.is_empty, Nat.and_one_is_mod, Nat.testBit_to_div_mod, Nat.pow_zero,
    Nat.div_one]
  by_cases h : b.neighborhood_infos % 2 = 1
  · simp [h]
  · have : b.neighborhood_infos % 2 = 0 := by omega
    simp [this]

/-- `has_overflow` is bit 1 of the word. -/
theorem has_overflow_eq_testBit (b : Bucket) :
    b.has_overflow = b.neighborhood_infos.testBit 1 := by
  have h2 : (2 : Nat) = 2 ^ 1 := rfl
  simp only [Bucket.has_overflow]
  rw [h2, Nat.and_two_pow]
  cases h : b.neighborhood_infos.testBit 1 <;> simp [h]

/-- `check_neighbor_presence k` is bit `k + 2` of the word. -/
theorem check_neighbor_presence_eq_testBit (b : Bucket) (k : Nat) :
    b.check_neighbor_presence k = b.neighborhood_infos.testBit (k + 2) := by
  simp only [Bucket.check_neighbor_presence, NB_RESERVED_BITS_IN_NEIGHBORHOOD,
    Nat.and_one_is_mod, Nat.shiftRight_eq_div_pow, Nat.testBit_to_div_mod]
  by_cases h : b.neighborhood_infos / 2 ^ (k + 2) % 2 = 1
  · simp [h]
  · simp [h]

/-- The neighborhood bitmap's bit `k` is bit `k + 2` of the word. -/
theorem get_neighborhood_infos_testBit (b : Bucket) (k : Nat) :
    b.get_neighborhood_infos.testBit k = b.neighborhood_infos.testBit (k + 2) := by
  simp only [Bucket.get_neighborhood_infos, NB_RESERVED_BITS_IN_NEIGHBORHOOD,
    Nat.testBit_shiftRight, Nat.add_comm]

/-- A set bit bounds the word from below. -/
theorem testBit_lt_of_lt_two_pow {x k n : Nat} (hx : x < 2 ^ n)
    (h : x.testBit k = true) : k < n := by
  by_contra hk
  have : x < 2 ^ k := lt_of_lt_of_le hx (Nat.pow_le_pow_right (by omega) (by omega))
  rw [Nat.testBit_lt_two_pow this] at h
  · exact Bool.noConfusion h

/-- The word width covers the `N + 2` used bits for every legal `N`. -/
theorem bitmapWidth_ge {N : Nat} (h : N ≤ 62) : N + 2 ≤ bitmapWidth N := by
  simp only [bitmapWidth]
  split_ifs <;> omega

/-- Setting the overflow bit with `|||` leaves it set. -/
theorem or_two_and_two (x : Nat) : (x ||| 2) &&& 2 = 2 := by
  have h2 : (2 : Nat) = 2 ^ 1 := rfl
  rw [h2, Nat.and_two_pow, Nat.testBit_or,
    (by decide : ((2 : Nat) ^ 1).testBit 1 = true)]
  simp

/-- `set_overflow true` makes `has_overflow` true. -/
theorem has_overflow_set_overflow_true (W : Nat) (b : Bucket) :
    (b.set_overflow W true).has_overflow = true := by
  have h : b.set_overflow W true
      = { b with neighborhood_infos := b.neighborhood_infos ||| 2 } := rfl
  rw [h]
  simp [Bucket.has_overflow, or_two_and_two]

/-- The bit test of the scanning loops is bit 0. -/
theorem and_one_beq_one (x : Nat) : (x &&& 1 == 1) = x.testBit 0 := by
  simp only [Nat.and_one_is_mod, Nat.testBit_to_div_mod, Nat.pow_zero, Nat.div_one]
  by_cases h : x % 2 = 1
  · simp [h]
  · simp [h]

/-- Soundness of the `find_in_buckets` scan: a hit is at or after the start, its
bitmap bit is set, its stored key compares equal, and no earlier scanned position
hits. -/
theorem find_in_buckets_go_some {m : HMap} {key fuel it infos j : Nat}
    (h : find_in_buckets_go m key fuel it infos = some j) :
    it ≤ j ∧ j - it < fuel ∧ infos.testBit (j - it) = true
      ∧ (getBucket m j).get_key_value.1 = key
      ∧ ∀ d, d < j - it →
          ¬(infos.testBit d = true ∧ (getBucket m (it + d)).get_key_value.1 = key) := by
  induction fuel generalizing it infos with
  | zero => exact Option.noConfusion h
  | succ fuel ih =>
    rw [find_in_buckets_go] at h
    split at h
    · exact Option.noConfusion h
    · next hz =>
      split at h
      · next hit =>
        cases h
        rw [Bool.and_eq_true, and_one_beq_one, beq_iff_eq] at hit
        exact ⟨Nat.le_refl _, by omega, by simpa using hit.1, hit.2, by omega⟩
      · next hit =>
        obtain ⟨h1, h2, h3, h4, h5⟩ := ih h
        have hj : it + 1 ≤ j := h1
        refine ⟨by omega, by omega, ?_, h4, ?_⟩
        · have : j - it = (j - (it + 1)) + 1 := by omega
          rw [this, ← Nat.testBit_div_two]
          exact h3
        · intro d hd
          match d with
          | 0 =>
            intro ⟨hb, hk⟩
            refine hit ?_
            have ha : (infos &&& 1 == 1) = true := by rw [and_one_beq_one]; exact hb
            have hkk : ((getBucket m it).get_key_value.1 == key) = true := by
              rw [beq_iff_eq]
              simpa using hk
            rw [ha, hkk]
            rfl
          | d + 1 =>
            intro ⟨hb, hk⟩
            refine h5 d (by omega) ⟨?_, ?_⟩
            · rw [Nat.testBit_div_two]
              exact hb
            · have : it + 1 + d = it + (d + 1) := by omega
              rw [this]
              exact hk

/-- Completeness of the `find_in_buckets` scan: when it misses with enough fuel,
no bitmap bit is set at a position whose stored key compares equal. -/
theorem find_in_buckets_go_none {m : HMap} {key fuel it infos : Nat}
    (hb : infos < 2 ^ fuel) (h : find_in_buckets_go m key fuel it infos = none) :
    ∀ d, ¬(infos.testBit d = true ∧ (getBucket m (it + d)).get_key_value.1 = key) := by
  induction fuel generalizing it infos with
  | zero =>
    have : infos = 0 := by omega
    subst this
    intro d hd
    rw [Nat.zero_testBit] at hd
    exact Bool.noConfusion hd.1
  | succ fuel ih =>
    rw [find_in_buckets_go] at h
    split at h
    · next hz =>
      subst hz
      intro d hd
      rw [Nat.zero_testBit] at hd
      exact Bool.noConfusion hd.1
    · next hz =>
      split at h
      · exact Option.noConfusion h
      · next hit =>
        have hdiv : infos / 2 < 2 ^ fuel := by
          rw [Nat.div_lt_iff_lt_mul (by omega)]
          rw [Nat.pow_succ] at hb
          exact hb
        have := ih hdiv h
        intro d hd
        match d with
        | 0 =>
          refine hit ?_
          have ha : (infos &&& 1 == 1) = true := by rw [and_one_beq_one]; exact hd.1
          have hkk : ((getBucket m it).get_key_value.1 == key) = true := by
            rw [beq_iff_eq]
            simpa using hd.2
          rw [ha, hkk]
          rfl
        | d + 1 =>
          refine this d ⟨?_, ?_⟩
          · rw [Nat.testBit_div_two]
            exact hd.1
          · have hshift : it + 1 + d = it + (d + 1) := by omega
            rw [hshift]
            exact hd.2

/-- Soundness of `find_in_buckets` in terms of the neighborhood bitmap. -/
theorem find_in_buckets_some {m : HMap} {key i j : Nat}
    (h : find_in_buckets m key i = some j) :
    i ≤ j
      ∧ (getBucket m i).get_neighborhood_infos.testBit (j - i) = true
      ∧ (getBucket m j).get_key_value.1 = key := by
  obtain ⟨h1, _, h3, h4, _⟩ := find_in_buckets_go_some h
  exact ⟨h1, h3, h4⟩

/-- Completeness of `find_in_buckets`. -/
theorem find_in_buckets_none {m : HMap} {key i : Nat}
    (h : find_in_buckets m key i = none) :
    ∀ d, ¬((getBucket m i).get_neighborhood_infos.testBit d = true
        ∧ (getBucket m (i + d)).get_key_value.1 = key) :=
  find_in_buckets_go_none (Nat.lt_two_pow _) h

/-- A `findIdx?` hit reports an index (counted from `start`) whose element
satisfies the predicate. -/
theorem findIdx?_some_getElem {α : Type} {p : α → Bool} {l : List α} {s i : Nat}
    (h : List.findIdx? p l s = some i) :
    s ≤ i ∧ ∃ a, l[i - s]? = some a ∧ p a = true := by
  induction l generalizing s with
  | nil => exact Option.noConfusion h
  | cons x xs ih =>
    rw [List.findIdx?_cons] at h
    split at h
    · next hp =>
      cases h
      exact ⟨Nat.le_refl _, x, by simp, hp⟩
    · obtain ⟨h1, a, h2, h3⟩ := ih h
      refine ⟨by omega, a, ?_, h3⟩
      have : i - s = (i - (s + 1)) + 1 := by omega
      rw [this]
      simpa using h2

/-- An entry stored in a bucket is part of the contents. -/
theorem key_value_mem_contents {m : HMap} {j : Nat} {kv : Nat × Nat}
    (h : (getBucket m j).key_value = some kv) : kv ∈ contents m := by
  have hj := lt_length_of_key_value h
  simp only [contents, List.mem_append]
  exact Or.inl (List.mem_filterMap.mpr ⟨getBucket m j, getBucket_mem hj, h⟩)

/-- An entry of the overflow list is part of the contents. -/
theorem overflow_mem_contents {m : HMap} {idx : Nat} {kv : Nat × Nat}
    (h : m.overflow_elements[idx]? = some kv) : kv ∈ contents m := by
  simp only [contents, List.mem_append]
  exact Or.inr (List.mem_iff_getElem?.mpr ⟨idx, h⟩)

/-- A bucket-part member of the contents sits at some index. -/
theorem contents_bucket_elim {m : HMap} {kv : Nat × Nat}
    (h : kv ∈ m.buckets.filterMap (·.key_value)) :
    ∃ j, (getBucket m j).key_value = some kv := by
  obtain ⟨b, hb, hkv⟩ := List.mem_filterMap.mp h
  obtain ⟨j, hj⟩ := List.mem_iff_getElem?.mp hb
  refine ⟨j, ?_⟩
  have hget : getBucket m j = b := by
    simp [getBucket, List.getD_eq_getElem?_getD, hj]
  rw [hget]
  exact hkv

/-- Keys being distinct, a key determines its mapped value. -/
theorem nodup_value_unique {l : List (Nat × Nat)} (h : (l.map Prod.fst).Nodup)
    {k a b : Nat} (ha : (k, a) ∈ l) (hb : (k, b) ∈ l) : a = b := by
  induction l with
  | nil => cases ha
  | cons x xs ih =>
    rw [List.map_cons, List.nodup_cons] at h
    cases ha with
    | head =>
      cases hb with
      | head => rfl
      | tail _ hb' => exact absurd (List.mem_map.mpr ⟨(k, b), hb', rfl⟩) h.1
    | tail _ ha' =>
      cases hb with
      | head => exact absurd (List.mem_map.mpr ⟨(k, a), ha', rfl⟩) h.1
      | tail _ hb' => exact ih h.2 ha' hb'

/-- Soundness of `find` under the structural invariant: a returned position holds
an entry whose key is the searched one, and that entry is part of the contents. -/
theorem find_some_entry {hash : Nat → Nat} {N : Nat} {m : HMap} {key : Nat} {p : Pos}
    (hinv : Inv hash N m) (h : find hash N m key = some p) :
    ∃ v, valueAt m p = some v ∧ (key, v) ∈ contents m := by
  unfold find find_internal at h
  cases hfib : find_in_buckets m key (bucket_for_hash N m (hash key)) with
  | some j =>
    rw [hfib] at h
    injection h with h
    subst h
    obtain ⟨h1, h2, h3⟩ := find_in_buckets_some hfib
    rw [get_neighborhood_infos_testBit] at h2
    obtain ⟨-, -, kv, hkv, -⟩ := hinv.sound _ _ h2
    rw [Nat.add_sub_cancel' h1] at hkv
    have hgk : (getBucket m j).get_key_value = kv := by
      simp [Bucket.get_key_value, hkv]
    refine ⟨kv.2, ?_, ?_⟩
    · simp [valueAt, hkv]
    · have : kv = (key, kv.2) := by
        rw [hgk] at h3
        exact Prod.ext h3 rfl
      rw [← this]
      exact key_value_mem_contents hkv
  | none =>
    rw [hfib] at h
    cases hov : (getBucket m (bucket_for_hash N m (hash key))).has_overflow with
    | false =>
      rw [if_pos (by rw [hov]; rfl)] at h
      exact Option.noConfusion h
    | true =>
      rw [if_neg (by rw [hov]; simp)] at h
      cases hidx : List.findIdx? (fun (v : Nat × Nat) => v.1 == key) m.overflow_elements with
      | some idx =>
        rw [hidx] at h
        injection h with h
        subst h
        obtain ⟨-, a, ha, hpa⟩ := findIdx?_some_getElem hidx
        simp only [Nat.sub_zero] at ha
        rw [beq_iff_eq] at hpa
        refine ⟨a.2, ?_, ?_⟩
        · simp [valueAt, List.get?_eq_getElem?, ha]
        · have : a = (key, a.2) := Prod.ext hpa rfl
          rw [← this]
          exact overflow_mem_contents ha
      | none =>
        rw [hidx] at h
        exact Option.noConfusion h

/-- Completeness of `find` under the container invariants: a stored key is found. -/
theorem find_complete {hash : Nat → Nat} {N : Nat} {m : HMap} {key v : Nat}
    (hwf : WF hash N m) (h : (key, v) ∈ contents m) :
    find hash N m key ≠ none := by
  intro hnone
  unfold find find_internal at hnone
  cases hfib : find_in_buckets m key (bucket_for_hash N m (hash key)) with
  | some j => rw [hfib] at hnone; exact Option.noConfusion hnone
  | none =>
    rw [hfib] at hnone
    simp only [contents, List.mem_append] at h
    cases h with
    | inl hb =>
      obtain ⟨j, hj⟩ := contents_bucket_elim hb
      obtain ⟨hle, hlt, hbit⟩ := hwf.inv.complete j (key, v) hj
      refine find_in_buckets_none hfib (j - bucket_for_hash N m (hash key)) ⟨?_, ?_⟩
      · rw [get_neighborhood_infos_testBit]
        exact hbit
      · have hgk : (getBucket m j).get_key_value = (key, v) := by
          simp [Bucket.get_key_value, hj]
        rw [Nat.add_sub_cancel' hle, hgk]
    | inr ho =>
      have hflag := hwf.flag_complete (key, v) ho
      rw [← has_overflow_eq_testBit] at hflag
      rw [hflag] at hnone
      simp only [Bool.not_true, Bool.false_eq_true, if_false] at hnone
      split at hnone
      · exact Option.noConfusion hnone
      · next hnone2 =>
        rw [List.findIdx?_eq_none_iff] at hnone2
        have := hnone2 (key, v) ho
        simp at this

/-- C9.  `at(k)` raises (returns `none`) exactly when no entry with key `k` is
present; when `(k, v)` is stored, it returns `v` (the mapped value of the unique
matching entry).  `at?`, like `find`, is a pure function of the state: the
container is unchanged. -/
theorem claim_C9_at_raises_iff_absent (hash : Nat → Nat) (N : Nat) (m : HMap)
    (key : Nat) (hwf : WF hash N m) :
    (at? hash N m key = none ↔ ∀ v, (key, v) ∉ contents m)
      ∧ (∀ v, (key, v) ∈ contents m → at? hash N m key = some v) := by
  have main : ∀ v, (key, v) ∈ contents m → at? hash N m key = some v := by
    intro v hv
    unfold at?
    cases hf : find hash N m key with
    | none => exact absurd hf (find_complete hwf hv)
    | some p =>
      obtain ⟨v', hval, hmem⟩ := find_some_entry hwf.inv hf
      show valueAt m p = some v
      rw [hval, nodup_value_unique hwf.nodup hmem hv]
  refine ⟨⟨?_, ?_⟩, main⟩
  · intro hnone v hv
    rw [main v hv] at hnone
    exact Option.noConfusion hnone
  · intro habs
    unfold at?
    cases hf : find hash N m key with
    | none => rfl
    | some p =>
      obtain ⟨v', -, hmem⟩ := find_some_entry hwf.inv hf
      exact absurd hmem (habs v')

/-- `find?` over `range n` hits the least index satisfying the predicate. -/
theorem find?_range_eq_some {p : Nat → Bool} {n d : Nat} (hd : d < n) (hp : p d = true)
    (hmin : ∀ d', d' < d → p d' = false) : (List.range n).find? p = some d := by
  have hsplit : List.range n = List.range d ++ (List.range (n - d)).map (d + ·) := by
    rw [← List.range_add]
    congr 1
    omega
  rw [hsplit, List.find?_append]
  have h1 : (List.range d).find? p = none :=
    List.find?_eq_none.mpr (fun x hx => by simp [hmin x (List.mem_range.mp hx)])
  rw [h1, Option.none_or]
  have h2 : n - d = (n - d - 1) + 1 := by omega
  rw [h2, List.range_succ_eq_map]
  simp only [List.map_cons, List.find?_cons, Nat.add_zero, hp]

/-- C2.  The lookup of the source refines the spec's §4.3 description exactly:
compute the home, scan the set bits of its neighborhood bitmap from least to most
significant comparing the stored keys, return the first match; otherwise consult
the overflow flag and scan the overflow list for the first key equal under `eq`.
(`find` is a pure function of the container state — it never mutates it.) -/
theorem claim_C2_find_refines_spec (hash : Nat → Nat) (N : Nat) (m : HMap) (key : Nat)
    (hinv : Inv hash N m) : find hash N m key = findSpec hash N m key := by
  unfold find findSpec find_internal
  simp only []
  have hp : ∀ d, ((getBucket m (bucket_for_hash N m (hash key))).check_neighbor_presence d
      && (getBucket m (bucket_for_hash N m (hash key) + d)).get_key_value.1 == key) = true
      ↔ ((getBucket m (bucket_for_hash N m (hash key))).get_neighborhood_infos.testBit d = true
          ∧ (getBucket m (bucket_for_hash N m (hash key) + d)).get_key_value.1 = key) := by
    intro d
    rw [Bool.and_eq_true, beq_iff_eq, check_neighbor_presence_eq_testBit,
      ← get_neighborhood_infos_testBit]
  cases hfib : find_in_buckets m key (bucket_for_hash N m (hash key)) with
  | some j =>
    obtain ⟨h1, -, h3, h4, h5⟩ := find_in_buckets_go_some
      (show find_in_buckets_go m key
        ((getBucket m (bucket_for_hash N m (hash key))).get_neighborhood_infos)
        (bucket_for_hash N m (hash key))
        ((getBucket m (bucket_for_hash N m (hash key))).get_neighborhood_infos) = some j
       from hfib)
    have hdN : j - bucket_for_hash N m (hash key) < N := by
      have hword := h3
      rw [get_neighborhood_infos_testBit] at hword
      have hb := hinv.bits (bucket_for_hash N m (hash key))
      have := testBit_lt_of_lt_two_pow hb hword
      omega
    have hfr : (List.range N).find? (fun b =>
        (getBucket m (bucket_for_hash N m (hash key))).check_neighbor_presence b
          && (getBucket m (bucket_for_hash N m (hash key) + b)).get_key_value.1 == key)
        = some (j - bucket_for_hash N m (hash key)) := by
      refine find?_range_eq_some hdN ((hp _).mpr ⟨h3, ?_⟩) ?_
      · rw [Nat.add_sub_cancel' h1]
        exact h4
      · intro d' hd'
        have hne := h5 d' hd'
        rcases Bool.eq_false_or_eq_true ((getBucket m (bucket_for_hash N m (hash key))).check_neighbor_presence d'
            && (getBucket m (bucket_for_hash N m (hash key) + d')).get_key_value.1 == key) with hc | hc
        · exact absurd ((hp d').mp hc) hne
        · exact hc
    rw [hfr]
    show some (Pos.bucket j)
        = some (Pos.bucket (bucket_for_hash N m (hash key)
            + (j - bucket_for_hash N m (hash key))))
    rw [Nat.add_sub_cancel' h1]
  | none =>
    have hnone := find_in_buckets_none hfib
    have hfr : (List.range N).find? (fun b =>
        (getBucket m (bucket_for_hash N m (hash key))).check_neighbor_presence b
          && (getBucket m (bucket_for_hash N m (hash key) + b)).get_key_value.1 == key)
        = none := by
      refine List.find?_eq_none.mpr (fun d hd => ?_)
      intro hc
      exact hnone d ((hp d).mp hc)
    rw [hfr]

/-- The hop inner loop finds the least set bit, and only below its counter. -/
theorem hop_bits_go_some {fuel it infos r : Nat}
    (h : hop_bits_go fuel it infos = some r) :
    it ≤ r ∧ r - it < fuel ∧ infos.testBit (r - it) = true
      ∧ ∀ d, d < r - it → infos.testBit d = false := by
  induction fuel generalizing it infos with
  | zero => exact Option.noConfusion h
  | succ fuel ih =>
    rw [hop_bits_go] at h
    split at h
    · exact Option.noConfusion h
    · next hz =>
      split at h
      · next hbit =>
        cases h
        rw [and_one_beq_one] at hbit
        exact ⟨Nat.le_refl _, by omega, by simpa using hbit, by omega⟩
      · next hbit =>
        obtain ⟨h1, h2, h3, h4⟩ := ih h
        refine ⟨by omega, by omega, ?_, ?_⟩
        · have he : r - it = (r - (it + 1)) + 1 := by omega
          rw [he, ← Nat.testBit_div_two]
          exact h3
        · intro d hd
          match d with
          | 0 =>
            rcases Bool.eq_false_or_eq_true (infos.testBit 0) with hc | hc
            · rw [← and_one_beq_one] at hc
              exact absurd hc hbit
            · exact hc
          | d + 1 =>
            rw [← Nat.testBit_div_two]
            exact h4 d (by omega)

/-- The hop inner loop misses only when no bit below its counter is set. -/
theorem hop_bits_go_none {fuel it infos : Nat}
    (h : hop_bits_go fuel it infos = none) (hb : infos < 2 ^ fuel) :
    ∀ d, d < fuel → infos.testBit d = false := by
  induction fuel generalizing it infos with
  | zero => omega
  | succ fuel ih =>
    rw [hop_bits_go] at h
    split at h
    · next hz =>
      subst hz
      intro d _
      exact Nat.zero_testBit d
    · next hz =>
      split at h
      · exact Option.noConfusion h
      · next hbit =>
        have hdiv : infos / 2 < 2 ^ fuel := by
          rw [Nat.div_lt_iff_lt_mul (by omega)]
          rw [Nat.pow_succ] at hb
          exact hb
        have hrec := ih h hdiv
        intro d hd
        match d with
        | 0 =>
          rcases Bool.eq_false_or_eq_true (infos.testBit 0) with hc | hc
          · rw [← and_one_beq_one] at hc
            exact absurd hc hbit
          · exact hc
        | d + 1 =>
          rw [← Nat.testBit_div_two]
          exact hrec d (by omega)

/-- Toggling a bit is a xor on the word. -/
theorem toggle_infos_eq {N : Nat} (b : Bucket) (k : Nat)
    (hb : b.neighborhood_infos < 2 ^ (N + 2)) (hk : k < N) (hN : N ≤ 62) :
    (b.toggle_neighbor_presence (bitmapWidth N) k).neighborhood_infos
      = b.neighborhood_infos ^^^ 2 ^ (k + 2) := by
  have hxor : b.neighborhood_infos ^^^ 2 ^ (k + 2) < 2 ^ (N + 2) :=
    Nat.xor_lt_two_pow hb (Nat.pow_lt_pow_right (by omega) (by omega))
  have hW : 2 ^ (N + 2) ≤ 2 ^ bitmapWidth N :=
    Nat.pow_le_pow_right (by omega) (bitmapWidth_ge hN)
  simp only [Bucket.toggle_neighbor_presence, NB_RESERVED_BITS_IN_NEIGHBORHOOD,
    Nat.one_shiftLeft]
  exact Nat.mod_eq_of_lt (lt_of_lt_of_le hxor hW)

/-- The toggled bit flips. -/
theorem testBit_xor_pow_self (x k : Nat) : (x ^^^ 2 ^ k).testBit k = ! x.testBit k := by
  rw [Nat.testBit_xor, Nat.testBit_two_pow]
  simp [Bool.xor_comm]

/-- Other bits survive a toggle. -/
theorem testBit_xor_pow_ne (x : Nat) {k j : Nat} (h : k ≠ j) :
    (x ^^^ 2 ^ k).testBit j = x.testBit j := by
  rw [Nat.testBit_xor, Nat.testBit_two_pow]
  simp [h]

/-- Bits above 0 survive setting the occupancy bit. -/
theorem testBit_or_one_ne (x : Nat) {j : Nat} (h : 1 ≤ j) :
    (x ||| 1).testBit j = x.testBit j := by
  rw [Nat.testBit_or, (by rfl : (1 : Nat) = 2 ^ 0), Nat.testBit_two_pow]
  have : ¬ (0 = j) := by omega
  simp [this]

/-- Setting the occupancy bit sets it. -/
theorem testBit_or_one_zero (x : Nat) : (x ||| 1).testBit 0 = true := by
  rw [Nat.testBit_or, (by rfl : (1 : Nat) = 2 ^ 0), Nat.testBit_two_pow]
  simp

/-- Bits other than 1 survive setting the overflow bit. -/
theorem testBit_or_two_ne (x : Nat) {j : Nat} (h : j ≠ 1) :
    (x ||| 2).testBit j = x.testBit j := by
  rw [Nat.testBit_or, (by rfl : (2 : Nat) = 2 ^ 1), Nat.testBit_two_pow]
  have : ¬ (1 = j) := fun hh => h hh.symm
  simp [this]

/-- The bit pattern of the `~2` mask of a `W`-bit word. -/
theorem testBit_two_pow_sub_three {W : Nat} (hW : 2 ≤ W) (j : Nat) :
    (2 ^ W - 3).testBit j = (decide (j < W) && ! decide (j = 1)) := by
  have h4 : 2 ^ W = 4 * 2 ^ (W - 2) := by
    have he : 2 + (W - 2) = W := by omega
    calc 2 ^ W = 2 ^ (2 + (W - 2)) := by rw [he]
    _ = 2 ^ 2 * 2 ^ (W - 2) := Nat.pow_add 2 2 (W - 2)
    _ = 4 * 2 ^ (W - 2) := by norm_num
  have hy1 : 1 ≤ 2 ^ (W - 2) := Nat.one_le_two_pow
  have hy : 2 ^ W - 3 = 1 + 4 * (2 ^ (W - 2) - 1) := by omega
  rw [hy]
  match j with
  | 0 =>
    have h0 : (1 + 4 * (2 ^ (W - 2) - 1)).testBit 0 = true := by
      rw [Nat.testBit_to_div_mod]
      simp
      omega
    have h0W : 0 < W := by omega
    rw [h0]
    simp [h0W]
  | 1 =>
    have hdiv : (1 + 4 * (2 ^ (W - 2) - 1)) / 2 = 2 * (2 ^ (W - 2) - 1) := by
      have he : 1 + 4 * (2 ^ (W - 2) - 1) = 1 + 2 * (2 * (2 ^ (W - 2) - 1)) := by ring
      rw [he, Nat.add_mul_div_left _ _ (by omega : (0:Nat) < 2)]
      norm_num
    have : (1 + 4 * (2 ^ (W - 2) - 1)).testBit 1 = false := by
      rw [Nat.testBit_to_div_mod]
      simp only [Nat.pow_one, hdiv]
      simp
    rw [this]
    simp
  | j + 2 =>
    have hdiv : (1 + 4 * (2 ^ (W - 2) - 1)) / 2 ^ (j + 2)
        = (2 ^ (W - 2) - 1) / 2 ^ j := by
      have he : 2 ^ (j + 2) = 4 * 2 ^ j := by
        calc 2 ^ (j + 2) = 2 ^ 2 * 2 ^ j := by rw [Nat.pow_add, Nat.mul_comm]
        _ = 4 * 2 ^ j := by norm_num
      rw [he, ← Nat.div_div_eq_div_mul, Nat.add_mul_div_left _ _ (by omega : (0:Nat) < 4)]
      norm_num
    have hstep : (1 + 4 * (2 ^ (W - 2) - 1)).testBit (j + 2)
        = (2 ^ (W - 2) - 1).testBit j := by
      rw [Nat.testBit_to_div_mod, Nat.testBit_to_div_mod, hdiv]
    rw [hstep, Nat.testBit_two_pow_sub_one]
    by_cases hj : j < W - 2
    · have h1 : j + 2 < W := by omega
      simp [hj, h1]
    · have h1 : ¬ (j + 2 < W) := by omega
      simp [hj, h1]

/-- Bits other than 1 survive clearing the overflow bit; bit 1 is cleared. -/
theorem testBit_and_mask_two {W : Nat} (hW : 2 ≤ W) (x : Nat) (hx : x < 2 ^ W) (j : Nat) :
    (x &&& (2 ^ W - 3)).testBit j = if j = 1 then false else x.testBit j := by
  rw [Nat.testBit_and, testBit_two_pow_sub_three hW]
  by_cases hj : j = 1
  · simp [hj]
  · by_cases hjW : j < W
    · simp [hj, hjW]
    · have hx0 : x.testBit j = false := Nat.testBit_lt_two_pow
        (lt_of_lt_of_le hx (Nat.pow_le_pow_right (by omega) (by omega)))
      simp [hj, hjW, hx0]

/-- The structural invariant only reads the bucket array. -/
theorem Inv.congr_buckets {hash : Nat → Nat} {N : Nat} {m m' : HMap}
    (h : m'.buckets = m.buckets) (hinv : Inv hash N m) : Inv hash N m' := by
  have hg : ∀ i, getBucket m' i = getBucket m i := fun i => by simp [getBucket, h]
  have hc : bucket_count N m' = bucket_count N m := by simp [bucket_count, h]
  have hb : ∀ x, bucket_for_hash N m' x = bucket_for_hash N m x := fun x => by
    simp [bucket_for_hash, hc]
  refine ⟨hinv.nsize, hinv.nmax, hc ▸ hinv.pow, ?_, ?_, ?_, ?_, ?_⟩
  · rw [hc, h]
    exact hinv.len_eq
  · intro i
    rw [hg]
    exact hinv.bits i
  · intro i
    rw [hg]
    exact hinv.occ i
  · intro i off hbit
    rw [hg] at hbit
    obtain ⟨h1, h2, kv, h3, h4⟩ := hinv.sound i off hbit
    exact ⟨h1, by rw [h]; exact h2, kv, by rw [hg]; exact h3, by rw [hb]; exact h4⟩
  · intro j kv hkv
    rw [hg] at hkv
    obtain ⟨h1, h2, h3⟩ := hinv.complete j kv hkv
    rw [hb (hash kv.1), hg]
    exact ⟨h1, h2, h3⟩

/-- Reading after a write, all cases. -/
theorem getBucket_setBucket (m : HMap) (i : Nat) (b' : Bucket) (j : Nat) :
    getBucket (setBucket m i b') j
      = if i = j ∧ i < m.buckets.length then b' else getBucket m j := by
  simp only [getBucket, setBucket, List.getD_eq_getElem?_getD, List.getElem?_set]
  by_cases h1 : i = j
  · subst h1
    by_cases h2 : i < m.buckets.length
    · simp [h2]
    · simp [h2, List.getElem?_eq_none (Nat.le_of_not_lt h2)]
  · simp [h1]

/-- The `round_up_to_power_of_two` loop keeps the running power a power of two. -/
theorem round_up_go_pow2 : ∀ fuel value p1, (∃ k, p1 + 1 = 2 ^ k) →
    ∃ k, round_up_go fuel value p1 = 2 ^ k := by
  intro fuel
  induction fuel with
  | zero => exact fun value p1 h => h
  | succ fuel ih =>
    intro value p1 h
    rw [round_up_go]
    split
    · refine ih value (2 * p1 + 1) ?_
      obtain ⟨k, hk⟩ := h
      exact ⟨k + 1, by rw [Nat.pow_succ]; omega⟩
    · exact h

/-- `round_up_to_power_of_two` returns a power of two. -/
theorem round_up_pow2 (value : Nat) :
    ∃ k, round_up_to_power_of_two value = 2 ^ k :=
  round_up_go_pow2 value value 0 ⟨0, rfl⟩

/-- `round_up_to_power_of_two` is positive. -/
theorem round_up_pos (value : Nat) : 1 ≤ round_up_to_power_of_two value := by
  obtain ⟨k, hk⟩ := round_up_pow2 value
  rw [hk]
  exact Nat.one_le_two_pow

/-- Every bucket of a fresh map is the empty bucket. -/
theorem getBucket_mkHopscotchMap (N c a d i : Nat) :
    getBucket (mkHopscotchMap N c a d) i = Bucket.emptyBucket := by
  simp only [mkHopscotchMap, getBucket, List.getD_eq_getElem?_getD,
    List.getElem?_replicate]
  split <;> rfl

/-- The logical bucket count of a fresh map. -/
theorem bucket_count_mkHopscotchMap {N : Nat} (_hN : 1 ≤ N) (c a d : Nat) :
    bucket_count N (mkHopscotchMap N c a d) = round_up_to_power_of_two c := by
  have hpos := round_up_pos c
  simp only [bucket_count, mkHopscotchMap, List.length_replicate]
  omega

/-- The freshly constructed map satisfies the structural invariant. -/
theorem Inv_mkHopscotchMap (hash : Nat → Nat) {N : Nat} (hN1 : 1 ≤ N) (hN2 : N ≤ 62)
    (c a d : Nat) : Inv hash N (mkHopscotchMap N c a d) := by
  have hpos := round_up_pos c
  refine ⟨hN1, hN2, ?_, ?_, ?_, ?_, ?_, ?_⟩
  · rw [bucket_count_mkHopscotchMap hN1]
    exact round_up_pow2 c
  · rw [bucket_count_mkHopscotchMap hN1]
    simp only [mkHopscotchMap, List.length_replicate]
    omega
  · intro i
    rw [getBucket_mkHopscotchMap]
    exact Nat.pos_pow_of_pos _ (by omega)
  · intro i
    rw [getBucket_mkHopscotchMap]
    rfl
  · intro i off hbit
    rw [getBucket_mkHopscotchMap] at hbit
    simp [Bucket.emptyBucket, Nat.zero_testBit] at hbit
  · intro j kv hkv
    rw [getBucket_mkHopscotchMap] at hkv
    exact Option.noConfusion hkv

/-- Every bucket of a cleared map is the empty bucket. -/
theorem getBucket_clear (m : HMap) (i : Nat) :
    getBucket (clear m) i = Bucket.emptyBucket := by
  simp only [clear, getBucket, List.getD_eq_getElem?_getD, List.getElem?_map]
  cases m.buckets[i]? <;> rfl

/-- `clear` preserves the structural invariant. -/
theorem Inv_clear {hash : Nat → Nat} {N : Nat} {m : HMap} (hinv : Inv hash N m) :
    Inv hash N (clear m) := by
  have hlen : (clear m).buckets.length = m.buckets.length := by simp [clear]
  have hcount : bucket_count N (clear m) = bucket_count N m := by
    simp [bucket_count, hlen]
  refine ⟨hinv.nsize, hinv.nmax, hcount ▸ hinv.pow, ?_, ?_, ?_, ?_, ?_⟩
  · rw [hcount, hlen]
    exact hinv.len_eq
  · intro i
    rw [getBucket_clear]
    exact Nat.pos_pow_of_pos _ (by omega)
  · intro i
    rw [getBucket_clear]
    rfl
  · intro i off hbit
    rw [getBucket_clear] at hbit
    simp [Bucket.emptyBucket, Nat.zero_testBit] at hbit
  · intro j kv hkv
    rw [getBucket_clear] at hkv
    exact Option.noConfusion hkv

/-- Rewriting one bucket's word without touching its slot, its occupancy bit or its
neighborhood bits preserves the structural invariant (covers both `set_overflow`
writes). -/
theorem Inv_update_word {hash : Nat → Nat} {N : Nat} {m : HMap} {i : Nat} {b' : Bucket}
    (hinv : Inv hash N m)
    (hkv : b'.key_value = (getBucket m i).key_value)
    (hbits : ∀ j, j ≠ 1 →
      b'.neighborhood_infos.testBit j = (getBucket m i).neighborhood_infos.testBit j)
    (hlt : b'.neighborhood_infos < 2 ^ (N + 2)) :
    Inv hash N (setBucket m i b') := by
  have hlen := setBucket_length m i b'
  have hcount : bucket_count N (setBucket m i b') = bucket_count N m := by
    simp [bucket_count, hlen]
  have hbfh : ∀ x, bucket_for_hash N (setBucket m i b') x = bucket_for_hash N m x :=
    fun x => by simp [bucket_for_hash, hcount]
  have hkv_all : ∀ j, (getBucket (setBucket m i b') j).key_value
      = (getBucket m j).key_value := by
    intro j
    rw [getBucket_setBucket]
    split
    · next hc =>
      rw [hkv, hc.1]
    · rfl
  have hbit_all : ∀ j k, k ≠ 1 →
      (getBucket (setBucket m i b') j).neighborhood_infos.testBit k
        = (getBucket m j).neighborhood_infos.testBit k := by
    intro j k hk
    rw [getBucket_setBucket]
    split
    · next hc =>
      rw [hbits k hk, hc.1]
    · rfl
  refine ⟨hinv.nsize, hinv.nmax, hcount ▸ hinv.pow, ?_, ?_, ?_, ?_, ?_⟩
  · rw [hcount, hlen]
    exact hinv.len_eq
  · intro j
    rw [getBucket_setBucket]
    split
    · exact hlt
    · exact hinv.bits j
  · intro j
    rw [hkv_all, hbit_all j 0 (by omega)]
    exact hinv.occ j
  · intro c off hbit
    rw [hbit_all c (off + 2) (by omega)] at hbit
    obtain ⟨h1, h2, kv, h3, h4⟩ := hinv.sound c off hbit
    refine ⟨h1, ?_, kv, ?_, ?_⟩
    · rw [hlen]
      exact h2
    · rw [hkv_all]
      exact h3
    · rw [hbfh]
      exact h4
  · intro j kv hkv'
    rw [hkv_all] at hkv'
    obtain ⟨h1, h2, h3⟩ := hinv.complete j kv hkv'
    rw [hbfh, hbit_all _ _ (by omega)]
    exact ⟨h1, h2, h3⟩

/-- The word width is at least 8. -/
theorem bitmapWidth_ge_two (N : Nat) : 2 ≤ bitmapWidth N := by
  simp only [bitmapWidth]
  split_ifs <;> omega

/-- The bit pattern of the `~1` mask of a `W`-bit word. -/
theorem testBit_two_pow_sub_two {W : Nat} (hW : 1 ≤ W) (j : Nat) :
    (2 ^ W - 2).testBit j = (decide (j < W) && ! decide (j = 0)) := by
  have hy1 : 1 ≤ 2 ^ (W - 1) := Nat.one_le_two_pow
  have h2 : 2 ^ W = 2 * 2 ^ (W - 1) := by
    have he : 1 + (W - 1) = W := by omega
    calc 2 ^ W = 2 ^ (1 + (W - 1)) := by rw [he]
    _ = 2 ^ 1 * 2 ^ (W - 1) := Nat.pow_add 2 1 (W - 1)
    _ = 2 * 2 ^ (W - 1) := by norm_num
  have hy : 2 ^ W - 2 = 2 * (2 ^ (W - 1) - 1) := by omega
  rw [hy]
  match j with
  | 0 =>
    have h0 : (2 * (2 ^ (W - 1) - 1)).testBit 0 = false := by
      rw [Nat.testBit_to_div_mod]
      simp
    rw [h0]
    simp
  | j + 1 =>
    have hdiv : 2 * (2 ^ (W - 1) - 1) / 2 ^ (j + 1) = (2 ^ (W - 1) - 1) / 2 ^ j := by
      rw [Nat.pow_succ, Nat.mul_comm (2 ^ j) 2, ← Nat.div_div_eq_div_mul,
        Nat.mul_div_cancel_left _ (by omega : (0:Nat) < 2)]
    have hstep : (2 * (2 ^ (W - 1) - 1)).testBit (j + 1)
        = (2 ^ (W - 1) - 1).testBit j := by
      rw [Nat.testBit_to_div_mod, Nat.testBit_to_div_mod, hdiv]
    rw [hstep, Nat.testBit_two_pow_sub_one]
    by_cases hj : j < W - 1
    · have h1 : j + 1 < W := by omega
      simp [hj, h1]
    · have h1 : ¬ (j + 1 < W) := by omega
      simp [hj, h1]

/-- Bits other than 0 survive clearing the occupancy bit; bit 0 is cleared. -/
theorem testBit_and_mask_one {W : Nat} (hW : 1 ≤ W) (x : Nat) (hx : x < 2 ^ W) (j : Nat) :
    (x &&& (2 ^ W - 2)).testBit j = if j = 0 then false else x.testBit j := by
  rw [Nat.testBit_and, testBit_two_pow_sub_two hW]
  by_cases hj : j = 0
  · simp [hj]
  · by_cases hjW : j < W
    · simp [hj, hjW]
    · have hx0 : x.testBit j = false := Nat.testBit_lt_two_pow
        (lt_of_lt_of_le hx (Nat.pow_le_pow_right (by omega) (by omega)))
      simp [hj, hjW, hx0]

/-- `set_overflow` keeps the slot. -/
theorem set_overflow_key_value (W : Nat) (b : Bucket) (f : Bool) :
    (b.set_overflow W f).key_value = b.key_value := by
  cases f <;> rfl

/-- `set_overflow` keeps every bit but bit 1. -/
theorem set_overflow_testBit_ne {W : Nat} (hW2 : 2 ≤ W) (b : Bucket) (f : Bool)
    (hb : b.neighborhood_infos < 2 ^ W) {j : Nat} (hj : j ≠ 1) :
    (b.set_overflow W f).neighborhood_infos.testBit j
      = b.neighborhood_infos.testBit j := by
  cases f
  · show ((b.neighborhood_infos &&& (2 ^ W - 3)).testBit j) = _
    rw [testBit_and_mask_two hW2 _ hb]
    simp [hj]
  · show ((b.neighborhood_infos ||| 2).testBit j) = _
    exact testBit_or_two_ne _ hj

/-- `set_overflow` keeps the word bounded. -/
theorem set_overflow_lt {N W : Nat} (b : Bucket) (f : Bool)
    (hb : b.neighborhood_infos < 2 ^ (N + 2)) :
    (b.set_overflow W f).neighborhood_infos < 2 ^ (N + 2) := by
  cases f
  · show b.neighborhood_infos &&& (2 ^ W - 3) < 2 ^ (N + 2)
    exact lt_of_le_of_lt (Nat.and_le_left) hb
  · show b.neighborhood_infos ||| 2 < 2 ^ (N + 2)
    refine Nat.or_lt_two_pow hb ?_
    have : (4:Nat) ≤ 2 ^ (N + 2) := by
      calc (4:Nat) = 2 ^ 2 := rfl
      _ ≤ 2 ^ (N + 2) := Nat.pow_le_pow_right (by omega) (by omega)
    omega

/-- Writing either overflow flag preserves the structural invariant. -/
theorem Inv_set_overflow {hash : Nat → Nat} {N : Nat} {m : HMap} (i : Nat) (f : Bool)
    (hinv : Inv hash N m) :
    Inv hash N (setBucket m i ((getBucket m i).set_overflow (bitmapWidth N) f)) := by
  have hW : 2 ^ (N + 2) ≤ 2 ^ bitmapWidth N :=
    Nat.pow_le_pow_right (by omega) (bitmapWidth_ge hinv.nmax)
  refine Inv_update_word hinv (set_overflow_key_value _ _ _) ?_ ?_
  · intro j hj
    exact set_overflow_testBit_ne (bitmapWidth_ge_two N) _ f
      (lt_of_lt_of_le (hinv.bits i) hW) hj
  · exact set_overflow_lt _ f (hinv.bits i)

/-- `toggle_neighbor_presence` keeps the slot. -/
theorem toggle_key_value (W : Nat) (b : Bucket) (k : Nat) :
    (b.toggle_neighbor_presence W k).key_value = b.key_value := rfl

/-- `erase_from_bucket`, fully characterised: erasing an entry at `pos` from its home
bucket preserves the structural invariant, empties exactly that slot, clears exactly
bit `pos - home` of the home's word (other neighborhood bits, occupancy bits and
overflow flags survive), leaves the overflow list alone and decrements the count. -/
theorem erase_from_bucket_spec {hash : Nat → Nat} {N : Nat} {m : HMap} {i j : Nat}
    {kv : Nat × Nat} (hinv : Inv hash N m)
    (hkv : (getBucket m j).key_value = some kv)
    (hhome : bucket_for_hash N m (hash kv.1) = i) :
    Inv hash N (erase_from_bucket N m j i)
    ∧ (∀ j', (getBucket (erase_from_bucket N m j i) j').key_value
        = if j' = j then none else (getBucket m j').key_value)
    ∧ (∀ j', (getBucket (erase_from_bucket N m j i) j').neighborhood_infos.testBit 1
        = (getBucket m j').neighborhood_infos.testBit 1)
    ∧ (erase_from_bucket N m j i).overflow_elements = m.overflow_elements
    ∧ (erase_from_bucket N m j i).nb_elements = m.nb_elements - 1
    ∧ (erase_from_bucket N m j i).buckets.length = m.buckets.length := by
  have hcomp := hinv.complete j kv hkv
  rw [hhome] at hcomp
  obtain ⟨hij, hoffN, hbit⟩ := hcomp
  have hjlen : j < m.buckets.length := lt_length_of_key_value hkv
  have hilen : i < m.buckets.length := lt_of_le_of_lt hij hjlen
  have hioj : i + (j - i) = j := by omega
  have hW2 : 2 ≤ bitmapWidth N := bitmapWidth_ge_two N
  have hWb : 2 ^ (N + 2) ≤ 2 ^ bitmapWidth N :=
    Nat.pow_le_pow_right (by omega) (bitmapWidth_ge hinv.nmax)
  have hemp : (getBucket m j).is_empty = false := by
    rw [is_empty_eq_not_testBit, hinv.occ j, hkv]
    rfl
  have hrm : (getBucket m j).remove_key_value (bitmapWidth N)
      = ⟨(getBucket m j).neighborhood_infos &&& (2 ^ bitmapWidth N - 2), none⟩ := by
    simp only [Bucket.remove_key_value, hemp, Bool.false_eq_true, if_false,
      Bucket.set_is_empty, if_true]
  set W := bitmapWidth N with hWdef
  set m1 := setBucket m j ((getBucket m j).remove_key_value W) with hm1def
  have hm1 : ∀ j', getBucket m1 j'
      = if j' = j
        then Bucket.mk ((getBucket m j).neighborhood_infos &&& (2 ^ W - 2)) none
        else getBucket m j' := by
    intro j'
    rw [hm1def, getBucket_setBucket, hrm]
    by_cases h : j' = j
    · subst h
      simp [hjlen]
    · have h2 : ¬ j = j' := fun hh => h hh.symm
      simp [h, h2]
  have hm1_bit : ∀ j' k, k ≠ 0 →
      (getBucket m1 j').neighborhood_infos.testBit k
        = (getBucket m j').neighborhood_infos.testBit k := by
    intro j' k hk
    rw [hm1]
    by_cases h : j' = j
    · rw [if_pos h, h]
      rw [show (Bucket.mk ((getBucket m j).neighborhood_infos &&& (2 ^ W - 2))
          none).neighborhood_infos
        = (getBucket m j).neighborhood_infos &&& (2 ^ W - 2) from rfl]
      rw [testBit_and_mask_one (by omega) _ (lt_of_lt_of_le (hinv.bits j) hWb)]
      simp [hk]
    · rw [if_neg h]
  have hm1_bit0 : ∀ j', (getBucket m1 j').neighborhood_infos.testBit 0
      = if j' = j then false else (getBucket m j').neighborhood_infos.testBit 0 := by
    intro j'
    rw [hm1]
    by_cases h : j' = j
    · rw [if_pos h, if_pos h]
      rw [show (Bucket.mk ((getBucket m j).neighborhood_infos &&& (2 ^ W - 2))
          none).neighborhood_infos
        = (getBucket m j).neighborhood_infos &&& (2 ^ W - 2) from rfl]
      rw [testBit_and_mask_one (by omega) _ (lt_of_lt_of_le (hinv.bits j) hWb)]
      simp
    · rw [if_neg h, if_neg h]
  have hm1_kv : ∀ j', (getBucket m1 j').key_value
      = if j' = j then none else (getBucket m j').key_value := by
    intro j'
    rw [hm1]
    by_cases h : j' = j
    · simp [h]
    · rw [if_neg h, if_neg h]
  have hm1_lt : ∀ j', (getBucket m1 j').neighborhood_infos < 2 ^ (N + 2) := by
    intro j'
    rw [hm1]
    by_cases h : j' = j
    · rw [if_pos h]
      exact lt_of_le_of_lt Nat.and_le_left (hinv.bits j)
    · rw [if_neg h]
      exact hinv.bits j'
  have hm1_len : m1.buckets.length = m.buckets.length := setBucket_length m j _
  have htog : ((getBucket m1 i).toggle_neighbor_presence W (j - i)).neighborhood_infos
      = (getBucket m1 i).neighborhood_infos ^^^ 2 ^ (j - i + 2) :=
    toggle_infos_eq _ _ (hm1_lt i) hoffN hinv.nmax
  set m2 := setBucket m1 i ((getBucket m1 i).toggle_neighbor_presence W (j - i))
    with hm2def
  have hm2 : ∀ j', getBucket m2 j'
      = if j' = i then (getBucket m1 i).toggle_neighbor_presence W (j - i)
        else getBucket m1 j' := by
    intro j'
    rw [hm2def, getBucket_setBucket]
    by_cases h : j' = i
    · subst h
      simp [hm1_len, hilen]
    · have h2 : ¬ i = j' := fun hh => h hh.symm
      simp [h, h2]
  have hgF : ∀ j', getBucket (erase_from_bucket N m j i) j' = getBucket m2 j' :=
    fun j' => rfl
  have hlenF : (erase_from_bucket N m j i).buckets.length = m.buckets.length := by
    show m2.buckets.length = m.buckets.length
    rw [setBucket_length, hm1_len]
  have hcount : bucket_count N (erase_from_bucket N m j i) = bucket_count N m := by
    simp [bucket_count, hlenF]
  have hbfh : ∀ x, bucket_for_hash N (erase_from_bucket N m j i) x
      = bucket_for_hash N m x := by
    intro x
    simp [bucket_for_hash, hcount]
  have hF_kv : ∀ j', (getBucket (erase_from_bucket N m j i) j').key_value
      = if j' = j then none else (getBucket m j').key_value := by
    intro j'
    rw [hgF, hm2]
    by_cases h : j' = i
    · rw [if_pos h, toggle_key_value, hm1_kv, h]
    · rw [if_neg h, hm1_kv]
  have hF_bit : ∀ j' k, 1 ≤ k →
      (getBucket (erase_from_bucket N m j i) j').neighborhood_infos.testBit k
        = if j' = i ∧ k = j - i + 2 then false
          else (getBucket m j').neighborhood_infos.testBit k := by
    intro j' k hk
    rw [hgF, hm2]
    by_cases h : j' = i
    · rw [if_pos h, htog]
      by_cases hke : k = j - i + 2
      · rw [hke, testBit_xor_pow_self, hm1_bit _ _ (by omega), hbit]
        simp [h, hke]
      · rw [testBit_xor_pow_ne _ (fun hh => hke hh.symm), hm1_bit _ _ (by omega)]
        simp [h, hke]
    · rw [if_neg h, hm1_bit _ _ (by omega)]
      have : ¬ (j' = i ∧ k = j - i + 2) := fun hh => h hh.1
      rw [if_neg this]
  have hF_bit0 : ∀ j',
      (getBucket (erase_from_bucket N m j i) j').neighborhood_infos.testBit 0
        = if j' = j then false
          else (getBucket m j').neighborhood_infos.testBit 0 := by
    intro j'
    rw [hgF, hm2]
    by_cases h : j' = i
    · rw [if_pos h, htog, testBit_xor_pow_ne _ (by omega), hm1_bit0, h]
    · rw [if_neg h, hm1_bit0]
  have hF_lt : ∀ j',
      (getBucket (erase_from_bucket N m j i) j').neighborhood_infos < 2 ^ (N + 2) := by
    intro j'
    rw [hgF, hm2]
    by_cases h : j' = i
    · rw [if_pos h, htog]
      exact Nat.xor_lt_two_pow (hm1_lt i)
        (Nat.pow_lt_pow_right (by omega) (by omega))
    · rw [if_neg h]
      exact hm1_lt j'
  refine ⟨?_, hF_kv, fun j' => ?_, rfl, ?_, hlenF⟩
  · refine ⟨hinv.nsize, hinv.nmax, hcount ▸ hinv.pow, ?_, hF_lt, ?_, ?_, ?_⟩
    · rw [hcount, hlenF]
      exact hinv.len_eq
    · intro j'
      rw [hF_kv, hF_bit0]
      by_cases h : j' = j
      · simp [h]
      · rw [if_neg h, if_neg h]
        exact hinv.occ j'
    · intro c offc hbitc
      rw [hF_bit c (offc + 2) (by omega)] at hbitc
      by_cases hci : c = i ∧ offc + 2 = j - i + 2
      · rw [if_pos hci] at hbitc
        exact Bool.noConfusion hbitc
      · rw [if_neg hci] at hbitc
        obtain ⟨h1, h2, kv', h3, h4⟩ := hinv.sound c offc hbitc
        have hne : c + offc ≠ j := by
          intro he
          rw [he, hkv] at h3
          injection h3 with h3
          subst h3
          rw [hhome] at h4
          exact hci ⟨h4.symm, by omega⟩
        refine ⟨h1, by rw [hlenF]; exact h2, kv', ?_, ?_⟩
        · rw [hF_kv, if_neg hne]
          exact h3
        · rw [hbfh]
          exact h4
    · intro j' kv' hkv'
      rw [hF_kv] at hkv'
      by_cases h : j' = j
      · rw [if_pos h] at hkv'
        exact Option.noConfusion hkv'
      · rw [if_neg h] at hkv'
        obtain ⟨h1, h2, h3⟩ := hinv.complete j' kv' hkv'
        rw [hbfh, hF_bit _ _ (by omega)]
        have hne : ¬ (bucket_for_hash N m (hash kv'.1) = i
            ∧ j' - bucket_for_hash N m (hash kv'.1) + 2 = j - i + 2) := by
          intro hh
          apply h
          omega
        rw [if_neg hne]
        exact ⟨h1, h2, h3⟩
  · rw [hF_bit j' 1 (by omega)]
    have : ¬ (j' = i ∧ 1 = j - i + 2) := by omega
    rw [if_neg this]
  · show m2.nb_elements - 1 = m.nb_elements - 1
    rw [hm2def, setBucket_nb_elements, hm1def, setBucket_nb_elements]

/-- Under distinct keys, the position in a pair list is determined by the key. -/
theorem nodup_key_index_unique {l : List (Nat × Nat)} (h : (l.map Prod.fst).Nodup) :
    ∀ (p q : Nat) (x y : Nat × Nat), l[p]? = some x → l[q]? = some y → x.1 = y.1 →
      p = q := by
  induction l with
  | nil =>
    intro p q x y hp
    simp at hp
  | cons a as ih =>
    rw [List.map_cons, List.nodup_cons] at h
    intro p q x y hp hq hk
    cases p with
    | zero =>
      cases q with
      | zero => rfl
      | succ q =>
        simp only [List.getElem?_cons_zero, Option.some.injEq] at hp
        simp only [List.getElem?_cons_succ] at hq
        have hmem : a.1 ∈ as.map Prod.fst :=
          List.mem_map.mpr ⟨y, List.mem_iff_getElem?.mpr ⟨q, hq⟩, by rw [← hk, hp]⟩
        exact absurd hmem h.1
    | succ p =>
      cases q with
      | zero =>
        simp only [List.getElem?_cons_zero, Option.some.injEq] at hq
        simp only [List.getElem?_cons_succ] at hp
        have hmem : a.1 ∈ as.map Prod.fst :=
          List.mem_map.mpr ⟨x, List.mem_iff_getElem?.mpr ⟨p, hp⟩, by rw [hk, hq]⟩
        exact absurd hmem h.1
      | succ q =>
        simp only [List.getElem?_cons_succ] at hp hq
        rw [ih h.2 p q x y hp hq hk]

/-- Removing the unique entry with a given key from a duplicate-free pair list keeps
exactly the entries with other keys. -/
theorem mem_eraseIdx_key_iff {l : List (Nat × Nat)} (h : (l.map Prod.fst).Nodup)
    {idx : Nat} {key v : Nat} (hidx : l[idx]? = some (key, v)) (kv' : Nat × Nat) :
    kv' ∈ l.eraseIdx idx ↔ kv' ∈ l ∧ kv'.1 ≠ key := by
  constructor
  · intro hm
    obtain ⟨p, hpne, hp⟩ := List.mem_eraseIdx_iff_getElem?.mp hm
    refine ⟨List.mem_iff_getElem?.mpr ⟨p, hp⟩, ?_⟩
    intro hkey
    exact hpne (nodup_key_index_unique h p idx kv' (key, v) hp hidx hkey)
  · rintro ⟨hm, hne⟩
    obtain ⟨p, hp⟩ := List.mem_iff_getElem?.mp hm
    refine List.mem_eraseIdx_iff_getElem?.mpr ⟨p, ?_, hp⟩
    intro he
    rw [he, hidx] at hp
    injection hp with hp
    rw [← hp] at hne
    exact hne rfl

/-- A pair stored at some index of the bucket list is in its `filterMap`. -/
theorem getD_key_value_mem_filterMap {l : List Bucket} {j : Nat} {kv : Nat × Nat}
    (h : (l.getD j Bucket.emptyBucket).key_value = some kv) :
    kv ∈ l.filterMap (·.key_value) := by
  by_cases hj : j < l.length
  · refine List.mem_filterMap.mpr ⟨l.getD j Bucket.emptyBucket, ?_, h⟩
    rw [List.getD_eq_getElem?_getD, List.getElem?_eq_getElem hj, Option.getD_some]
    exact List.getElem_mem hj
  · rw [List.getD_eq_getElem?_getD, List.getElem?_eq_none (by omega), Option.getD_none] at h
    exact Option.noConfusion h

/-- Under distinct keys in the bucket list, the bucket index of a live entry is
determined by its key. -/
theorem buckets_key_unique {l : List Bucket}
    (h : ((l.filterMap (·.key_value)).map Prod.fst).Nodup) :
    ∀ {j₁ j₂ : Nat} {kv₁ kv₂ : Nat × Nat},
      (l.getD j₁ Bucket.emptyBucket).key_value = some kv₁ →
      (l.getD j₂ Bucket.emptyBucket).key_value = some kv₂ →
      kv₁.1 = kv₂.1 → j₁ = j₂ := by
  induction l with
  | nil =>
    intro j₁ j₂ kv₁ kv₂ h1
    simp only [List.getD_nil] at h1
    exact absurd h1 (by simp [Bucket.emptyBucket])
  | cons x xs ih =>
    intro j₁ j₂ kv₁ kv₂ h1 h2 hk
    have htail : ((xs.filterMap (·.key_value)).map Prod.fst).Nodup := by
      rw [List.filterMap_cons] at h
      cases hx : x.key_value with
      | none => rw [hx] at h; exact h
      | some a =>
        rw [hx, List.map_cons, List.nodup_cons] at h
        exact h.2
    match j₁, j₂ with
    | 0, 0 => rfl
    | 0, j₂ + 1 =>
      simp only [List.getD_cons_zero] at h1
      simp only [List.getD_cons_succ] at h2
      rw [List.filterMap_cons, h1, List.map_cons, List.nodup_cons] at h
      have hmem : kv₁.1 ∈ (xs.filterMap (·.key_value)).map Prod.fst :=
        List.mem_map.mpr ⟨kv₂, getD_key_value_mem_filterMap h2, hk.symm⟩
      exact absurd hmem h.1
    | j₁ + 1, 0 =>
      simp only [List.getD_cons_zero] at h2
      simp only [List.getD_cons_succ] at h1
      rw [List.filterMap_cons, h2, List.map_cons, List.nodup_cons] at h
      have hmem : kv₂.1 ∈ (xs.filterMap (·.key_value)).map Prod.fst :=
        List.mem_map.mpr ⟨kv₁, getD_key_value_mem_filterMap h1, hk⟩
      exact absurd hmem h.1
    | j₁ + 1, j₂ + 1 =>
      simp only [List.getD_cons_succ] at h1 h2
      rw [ih htail h1 h2 hk]

/-- Overwriting a bucket with one holding the same slot keeps the `filterMap`. -/
theorem filterMap_key_value_set : ∀ (l : List Bucket) (i : Nat) (b' : Bucket),
    b'.key_value = (l.getD i Bucket.emptyBucket).key_value →
    (l.set i b').filterMap (·.key_value) = l.filterMap (·.key_value) := by
  intro l
  induction l with
  | nil =>
    intro i b' h
    rfl
  | cons x xs ih =>
    intro i b' h
    match i with
    | 0 =>
      rw [show (x :: xs).set 0 b' = b' :: xs from rfl, List.filterMap_cons,
        List.filterMap_cons]
      have hx : b'.key_value = x.key_value := by simpa using h
      rw [hx]
    | i + 1 =>
      rw [show (x :: xs).set (i + 1) b' = x :: xs.set i b' from rfl, List.filterMap_cons,
        List.filterMap_cons, ih i b' (by simpa using h)]

/-- Rewriting one bucket's metadata word does not change the contents. -/
theorem contents_setBucket_word {m : HMap} {i : Nat} {b' : Bucket}
    (h : b'.key_value = (getBucket m i).key_value) :
    contents (setBucket m i b') = contents m := by
  simp only [contents, setBucket]
  rw [filterMap_key_value_set m.buckets i b' h]

/-- Splitting the key-distinctness of the contents into its three parts. -/
theorem nodup_contents_parts {m : HMap} (h : ((contents m).map Prod.fst).Nodup) :
    ((m.buckets.filterMap (·.key_value)).map Prod.fst).Nodup
    ∧ (m.overflow_elements.map Prod.fst).Nodup
    ∧ ∀ kv₁ ∈ m.buckets.filterMap (·.key_value),
        ∀ kv₂ ∈ m.overflow_elements, kv₁.1 ≠ kv₂.1 := by
  rw [contents, List.map_append, List.nodup_append] at h
  obtain ⟨h1, h2, h3⟩ := h
  refine ⟨h1, h2, ?_⟩
  intro kv₁ hm1 kv₂ hm2 he
  exact h3 (List.mem_map.mpr ⟨kv₁, hm1, rfl⟩) (List.mem_map.mpr ⟨kv₂, hm2, he.symm⟩)

/-- `erase_from_overflow`: the invariant survives, the contents lose exactly the
`pos`-th overflow entry, and the count drops by one (whether or not the home's
overflow flag gets cleared). -/
theorem erase_from_overflow_spec {hash : Nat → Nat} {N : Nat} {m : HMap}
    (idx i : Nat) (hinv : Inv hash N m) :
    Inv hash N (erase_from_overflow hash N m idx i)
    ∧ contents (erase_from_overflow hash N m idx i)
        = m.buckets.filterMap (·.key_value) ++ m.overflow_elements.eraseIdx idx
    ∧ (erase_from_overflow hash N m idx i).nb_elements = m.nb_elements - 1 := by
  have hinv1 : Inv hash N { m with overflow_elements := m.overflow_elements.eraseIdx idx, nb_elements := m.nb_elements - 1 } := by
    refine Inv.congr_buckets ?_ hinv
    rfl
  unfold erase_from_overflow
  cases hmatch : find_in_overflow_from_bucket hash N { m with overflow_elements := m.overflow_elements.eraseIdx idx, nb_elements := m.nb_elements - 1 } i with
  | some p =>
    simp only [hmatch]
    exact ⟨hinv1, rfl, by trivial⟩
  | none =>
    simp only [hmatch]
    refine ⟨Inv_set_overflow i false hinv1, ?_, rfl⟩
    rw [contents_setBucket_word (set_overflow_key_value _ _ _)]
    rfl

/-- C8.  `erase(k)` on a valid container: when an entry `(k, v)` is present (in a
bucket or in the overflow list), the call returns 1, the count drops by one, the
contents afterwards hold exactly the former entries whose key differs from `k`, and
a subsequent `find(k)` misses.  When `k` is absent, the call returns 0 and the
container is unchanged. -/
theorem claim_C8_erase_by_key (hash : Nat → Nat) (N : Nat) (m : HMap) (key : Nat)
    (hwf : WF hash N m) :
    (∀ v, (key, v) ∈ contents m →
        (erase hash N m key).2 = 1
        ∧ (erase hash N m key).1.nb_elements = m.nb_elements - 1
        ∧ (∀ kv', kv' ∈ contents (erase hash N m key).1
            ↔ kv' ∈ contents m ∧ kv'.1 ≠ key)
        ∧ find hash N (erase hash N m key).1 key = none)
    ∧ ((∀ v, (key, v) ∉ contents m) → erase hash N m key = (m, 0)) := by
  obtain ⟨hndb, hndo, hdisj⟩ := nodup_contents_parts hwf.nodup
  constructor
  · intro v hv
    have hmain : Inv hash N (erase hash N m key).1
        ∧ (erase hash N m key).2 = 1
        ∧ (erase hash N m key).1.nb_elements = m.nb_elements - 1
        ∧ (∀ kv', kv' ∈ contents (erase hash N m key).1
            ↔ kv' ∈ contents m ∧ kv'.1 ≠ key) := by
      cases hfib : find_in_buckets m key (bucket_for_hash N m (hash key)) with
      | some j =>
        have he : erase hash N m key
            = (erase_from_bucket N m j (bucket_for_hash N m (hash key)), 1) := by
          unfold erase
          simp only [hfib]
        obtain ⟨hle, hbit, hkey⟩ := find_in_buckets_some hfib
        rw [get_neighborhood_infos_testBit] at hbit
        obtain ⟨-, -, kv₀, hkv₀, hhome₀⟩ := hwf.inv.sound _ _ hbit
        rw [Nat.add_sub_cancel' hle] at hkv₀
        have hgk : (getBucket m j).get_key_value = kv₀ := by
          simp [Bucket.get_key_value, hkv₀]
        have hkv₀' : (getBucket m j).key_value = some (key, kv₀.2) := by
          rw [hkv₀]
          rw [hgk] at hkey
          exact congrArg some (Prod.ext hkey rfl)
        have hhome : bucket_for_hash N m (hash (key, kv₀.2).1)
            = bucket_for_hash N m (hash key) := rfl
        obtain ⟨hinv', hkv', hbit1', hov', hnb', hlen'⟩ :=
          erase_from_bucket_spec hwf.inv hkv₀' hhome
        rw [he]
        refine ⟨hinv', rfl, hnb', ?_⟩
        intro kv'
        constructor
        · intro hm'
          simp only [contents, List.mem_append] at hm'
          cases hm' with
          | inl hb =>
            obtain ⟨j₂, hj₂⟩ := contents_bucket_elim hb
            rw [hkv' j₂] at hj₂
            by_cases hjj : j₂ = j
            · rw [if_pos hjj] at hj₂
              exact Option.noConfusion hj₂
            · rw [if_neg hjj] at hj₂
              refine ⟨key_value_mem_contents hj₂, ?_⟩
              intro hkk
              exact hjj (buckets_key_unique hndb hj₂ hkv₀' (by rw [hkk]))
          | inr ho =>
            rw [hov'] at ho
            refine ⟨by simp only [contents, List.mem_append]; exact Or.inr ho, ?_⟩
            intro hkk
            exact hdisj (key, kv₀.2) (getD_key_value_mem_filterMap hkv₀') kv' ho
              (by rw [hkk])
        · rintro ⟨hmm, hne⟩
          simp only [contents, List.mem_append] at hmm
          cases hmm with
          | inl hb =>
            obtain ⟨j₂, hj₂⟩ := contents_bucket_elim hb
            have hjj : j₂ ≠ j := by
              intro hjeq
              rw [hjeq, hkv₀'] at hj₂
              injection hj₂ with hj₂
              rw [← hj₂] at hne
              exact hne rfl
            have hj₂' : (getBucket (erase_from_bucket N m j
                (bucket_for_hash N m (hash key))) j₂).key_value = some kv' := by
              rw [hkv' j₂, if_neg hjj]
              exact hj₂
            exact key_value_mem_contents hj₂'
          | inr ho =>
            simp only [contents, List.mem_append]
            exact Or.inr (by rw [hov']; exact ho)
      | none =>
        have hvcases : (key, v) ∈ m.buckets.filterMap (·.key_value)
            ∨ (key, v) ∈ m.overflow_elements := by
          simpa only [contents, List.mem_append] using hv
        cases hvcases with
        | inl hb =>
          obtain ⟨j, hj⟩ := contents_bucket_elim hb
          obtain ⟨hle, hlt, hbit⟩ := hwf.inv.complete j (key, v) hj
          have hle' : bucket_for_hash N m (hash key) ≤ j := hle
          have hbit' : (getBucket m (bucket_for_hash N m (hash key))).neighborhood_infos.testBit
              (j - bucket_for_hash N m (hash key) + 2) = true := hbit
          have hgk : (getBucket m j).get_key_value = (key, v) := by
            simp [Bucket.get_key_value, hj]
          refine absurd ⟨?_, ?_⟩
            (find_in_buckets_none hfib (j - bucket_for_hash N m (hash key)))
          · rw [get_neighborhood_infos_testBit]
            exact hbit'
          · rw [Nat.add_sub_cancel' hle', hgk]
        | inr ho =>
          have hflag := hwf.flag_complete (key, v) ho
          have hov : (getBucket m (bucket_for_hash N m (hash key))).has_overflow
              = true := by
            rw [has_overflow_eq_testBit]
            exact hflag
          cases hidx : m.overflow_elements.findIdx?
              (fun (w : Nat × Nat) => key == w.1) with
          | none =>
            rw [List.findIdx?_eq_none_iff] at hidx
            have := hidx (key, v) ho
            simp at this
          | some idx =>
            have he : erase hash N m key
                = (erase_from_overflow hash N m idx
                    (bucket_for_hash N m (hash key)), 1) := by
              unfold erase
              simp only [hfib, hidx, if_pos hov]
            obtain ⟨-, a, ha, hpa⟩ := findIdx?_some_getElem hidx
            simp only [Nat.sub_zero] at ha
            rw [beq_iff_eq] at hpa
            have ha' : m.overflow_elements[idx]? = some (key, a.2) := by
              rw [ha]
              exact congrArg some (Prod.ext hpa.symm rfl)
            obtain ⟨hinv', hcon', hnb'⟩ :=
              erase_from_overflow_spec idx (bucket_for_hash N m (hash key)) hwf.inv
            rw [he]
            refine ⟨hinv', rfl, hnb', ?_⟩
            intro kv'
            rw [hcon']
            simp only [List.mem_append]
            constructor
            · intro hm'
              cases hm' with
              | inl hb =>
                refine ⟨by simp only [contents, List.mem_append]; exact Or.inl hb, ?_⟩
                intro hkk
                exact hdisj kv' hb (key, a.2) (List.mem_iff_getElem?.mpr ⟨idx, ha'⟩)
                  (by rw [hkk])
              | inr hoe =>
                obtain ⟨hmem, hne⟩ := (mem_eraseIdx_key_iff hndo ha' kv').mp hoe
                exact ⟨by simp only [contents, List.mem_append]; exact Or.inr hmem, hne⟩
            · rintro ⟨hmm, hne⟩
              simp only [contents, List.mem_append] at hmm
              cases hmm with
              | inl hb => exact Or.inl hb
              | inr hoe => exact Or.inr ((mem_eraseIdx_key_iff hndo ha' kv').mpr ⟨hoe, hne⟩)
    obtain ⟨hinv', hret, hnb, hiff⟩ := hmain
    refine ⟨hret, hnb, hiff, ?_⟩
    cases hf : find hash N (erase hash N m key).1 key with
    | none => rfl
    | some p =>
      obtain ⟨v', -, hmem⟩ := find_some_entry hinv' hf
      exact absurd rfl ((hiff (key, v')).mp hmem).2
  · intro habs
    cases hfib : find_in_buckets m key (bucket_for_hash N m (hash key)) with
    | some j =>
      obtain ⟨hle, hbit, hkey⟩ := find_in_buckets_some hfib
      rw [get_neighborhood_infos_testBit] at hbit
      obtain ⟨-, -, kv₀, hkv₀, -⟩ := hwf.inv.sound _ _ hbit
      rw [Nat.add_sub_cancel' hle] at hkv₀
      have hgk : (getBucket m j).get_key_value = kv₀ := by
        simp [Bucket.get_key_value, hkv₀]
      rw [hgk] at hkey
      have hkv₀' : (getBucket m j).key_value = some (key, kv₀.2) := by
        rw [hkv₀]
        exact congrArg some (Prod.ext hkey rfl)
      have : (key, kv₀.2) ∈ contents m := key_value_mem_contents hkv₀'
      exact absurd this (habs kv₀.2)
    | none =>
      unfold erase
      simp only [hfib]
      cases hov : (getBucket m (bucket_for_hash N m (hash key))).has_overflow with
      | false => rw [if_neg (by simp)]
      | true =>
        rw [if_pos rfl]
        cases hidx : m.overflow_elements.findIdx?
            (fun (w : Nat × Nat) => key == w.1) with
        | none => rfl
        | some idx =>
          obtain ⟨-, a, ha, hpa⟩ := findIdx?_some_getElem hidx
          simp only [Nat.sub_zero] at ha
          rw [beq_iff_eq] at hpa
          have ha'' : m.overflow_elements[idx]? = some (key, a.2) := by
            rw [ha]
            exact congrArg some (Prod.ext hpa.symm rfl)
          have : (key, a.2) ∈ contents m := overflow_mem_contents ha''
          exact absurd this (habs a.2)

/-- A row of empty buckets holds no entries. -/
theorem filterMap_key_value_replicate_empty (n : Nat) :
    (List.replicate n Bucket.emptyBucket).filterMap (·.key_value) = [] := by
  induction n with
  | zero => rfl
  | succ n ih => simp [List.replicate_succ, List.filterMap_cons, Bucket.emptyBucket, ih]

/-- A fresh map has empty contents. -/
theorem contents_mkHopscotchMap (N c a d : Nat) :
    contents (mkHopscotchMap N c a d) = [] := by
  simp [contents, mkHopscotchMap, filterMap_key_value_replicate_empty]

/-- The freshly constructed map satisfies all the container invariants. -/
theorem WF_mkHopscotchMap (hash : Nat → Nat) {N : Nat} (hN1 : 1 ≤ N) (hN2 : N ≤ 62)
    (c a d : Nat) : WF hash N (mkHopscotchMap N c a d) := by
  refine ⟨Inv_mkHopscotchMap hash hN1 hN2 c a d, ?_, ?_⟩
  · intro kv hkv
    exact absurd hkv (List.not_mem_nil _)
  · rw [contents_mkHopscotchMap]
    exact List.nodup_nil

/-- C4, general part.  When no load-factor rehash intervenes, the probe finds an
empty bucket inside the array, the displacement loop fails, and
`will_neighborhood_change_on_rehash` reports that a growth rehash would move
nothing, `insert_internal` appends the pair to the overflow list, sets the home
bucket's overflow flag and increments `m_nb_elements`. -/
theorem insert_internal_overflow_fallback (hash : Nat → Nat) (N fuel : Nat)
    (m m1 : HMap) (kv : Nat × Nat) (i e1 : Nat)
    (hload : ¬ m.nb_elements + 1 > m.load_threshold)
    (hprobe : find_empty_bucket m i < m.buckets.length)
    (hloop : insert_loop N m kv i (find_empty_bucket m i) = Sum.inr (m1, e1))
    (hwc : will_neighborhood_change_on_rehash hash N m1 i = false)
    (hi : i < m1.buckets.length) :
    ∃ m', insert_internal hash N (fuel + 1) m kv i
        = some (m', Pos.overflow m1.overflow_elements.length, true)
      ∧ m'.overflow_elements = m1.overflow_elements ++ [kv]
      ∧ (getBucket m' i).has_overflow = true
      ∧ m'.nb_elements = m1.nb_elements + 1 := by
  have hmo : i < ({ m1 with overflow_elements := m1.overflow_elements ++ [kv]
      : HMap }).buckets.length := hi
  refine ⟨{ setBucket { m1 with overflow_elements := m1.overflow_elements ++ [kv] } i
      ((getBucket { m1 with overflow_elements := m1.overflow_elements ++ [kv] } i).set_overflow
        (bitmapWidth N) true) with nb_elements := m1.nb_elements + 1 },
    ?_, rfl, ?_, rfl⟩
  · simp only [insert_internal, exec]
    rw [if_neg hload]
    simp only [if_pos hprobe, hloop, hwc]
    rfl
  · show ((getBucket (setBucket { m1 with overflow_elements := m1.overflow_elements ++ [kv] } i
      ((getBucket { m1 with overflow_elements := m1.overflow_elements ++ [kv] } i).set_overflow
        (bitmapWidth N) true)) i).has_overflow) = true
    rw [getBucket_setBucket_self _ hmo]
    exact has_overflow_set_overflow_true _ _

/-- C4.  Overflow fallback: the general path property (any state in which the
probe found an empty bucket, the hop failed and a growth rehash would move no
occupant of `[i, i+N)` leads to an overflow append, the home's overflow flag and
`m_nb_elements + 1`), and the spec's concrete scenario: with the constant hash 0
and `N = 62`, 62 distinct keys fill bucket 0's whole neighborhood (bitmap all
ones, overflow list empty, flag clear), and inserting a 63rd distinct key places
it in the overflow list and sets bucket 0's overflow flag. -/
theorem claim_C4_overflow_fallback :
    (∀ (hash : Nat → Nat) (N fuel : Nat) (m m1 : HMap) (kv : Nat × Nat) (i e1 : Nat),
      ¬ m.nb_elements + 1 > m.load_threshold →
      find_empty_bucket m i < m.buckets.length →
      insert_loop N m kv i (find_empty_bucket m i) = Sum.inr (m1, e1) →
      will_neighborhood_change_on_rehash hash N m1 i = false →
      i < m1.buckets.length →
      ∃ m', insert_internal hash N (fuel + 1) m kv i
          = some (m', Pos.overflow m1.overflow_elements.length, true)
        ∧ m'.overflow_elements = m1.overflow_elements ++ [kv]
        ∧ (getBucket m' i).has_overflow = true
        ∧ m'.nb_elements = m1.nb_elements + 1)
    ∧ full62.nb_elements = 62
    ∧ (getBucket full62 0).get_neighborhood_infos = 2 ^ 62 - 1
    ∧ full62.overflow_elements = []
    ∧ (getBucket full62 0).has_overflow = false
    ∧ (insert constZeroHash 62 3 full62 (62, 620)).map
        (fun r => (r.1.overflow_elements, (getBucket r.1 0).has_overflow,
                   r.1.nb_elements, r.2.2))
        = some ([(62, 620)], true, 63, true) := by
  refine ⟨insert_internal_overflow_fallback, ?_⟩
  set_option maxRecDepth 1000000 in decide

/-- C10.  `clear()` removes every entry — afterwards `m_nb_elements = 0`, every
bucket is empty with a zero metadata word, and the overflow list is empty — while
the bucket array keeps its length, so `bucket_count()` and the home
`bucket_for_hash` of every key are unchanged. -/
theorem claim_C10_clear_frame (N : Nat) (m : HMap) :
    (clear m).nb_elements = 0
    ∧ (clear m).overflow_elements = []
    ∧ (∀ b ∈ (clear m).buckets, b.neighborhood_infos = 0 ∧ b.key_value = none
        ∧ b.is_empty = true ∧ b.has_overflow = false ∧ b.get_neighborhood_infos = 0)
    ∧ (clear m).buckets.length = m.buckets.length
    ∧ bucket_count N (clear m) = bucket_count N m
    ∧ (∀ h, bucket_for_hash N (clear m) h = bucket_for_hash N m h) := by
  refine ⟨rfl, rfl, ?_, by simp [clear], by simp [bucket_count, clear],
    fun h => by simp [bucket_for_hash, bucket_count, clear]⟩
  intro b hb
  simp only [clear, List.mem_map] at hb
  obtain ⟨a, -, rfl⟩ := hb
  have hcl : Bucket.clear a = ⟨0, none⟩ := rfl
  rw [hcl]
  exact ⟨rfl, rfl, by decide, by decide, by decide⟩

/-- C5 counterexample.  In the spec's displacement scenario (`N = 4`, identity hash,
keys 0..4), the hop does happen exactly as described, but bucket 0's neighborhood
bitmap does NOT stay unchanged: inserting the fifth key (home 0) into the freed
bucket 1 sets bit 1 of bucket 0's bitmap, changing it from `0b01` to `0b11`. -/
theorem claim_C5_counterexample :
    (getBucket hop5After4 0).get_neighborhood_infos = 1
    ∧ (getBucket hop5After5 0).get_neighborhood_infos = 3
    ∧ ¬ ((getBucket hop5After5 0).get_neighborhood_infos
          = (getBucket hop5After4 0).get_neighborhood_infos) := by decide

/-- C7 (code bug).  Evaluation of the failing input: 7 inserts under `bugHash` with
`N = 2`, then the public `rehash(1)`.  The rehash returns normally, but the multiset
of stored pairs is NOT preserved: `(3, 30)` and `(4, 40)` are silently dropped
(the temporary map's overflow list, asserted empty at source line 850, held them and
the wholesale list swap of line 852 discarded it), `m_nb_elements` stays 7 while
only 5 pairs remain, and a key that `find` located before the rehash is absent
after it. -/
theorem claim_C7_rehash_loses_elements :
    rehash bugHash 2 20 bugBefore 1 = some bugAfter
    ∧ bugBefore.nb_elements = 7
    ∧ (contents bugBefore).length = 7
    ∧ (3, 30) ∈ contents bugBefore
    ∧ (4, 40) ∈ contents bugBefore
    ∧ bugAfter.nb_elements = 7
    ∧ (contents bugAfter).length = 5
    ∧ (3, 30) ∉ contents bugAfter
    ∧ (4, 40) ∉ contents bugAfter
    ∧ find bugHash 2 bugBefore 3 = some (Pos.bucket 9)
    ∧ find bugHash 2 bugAfter 3 = none := by decide

/-- C6 (code bug).  Evaluation of the failing input (7 inserts under `bugHash` with
`N = 2`, then the public `rehash(1)`): after that rehash, bucket 1's overflow flag
is set although no entry of the overflow list has home bucket 1 — the nothrow
rehash variant does not re-establish the overflow-flag invariant (the flags set for
the temporary map's own overflow entries survive the discarding of that list). -/
theorem claim_C6_stale_overflow_flag :
    rehash bugHash 2 20 bugBefore 1 = some bugAfter
    ∧ (getBucket bugAfter 1).has_overflow = true
    ∧ (∀ v ∈ bugAfter.overflow_elements, bucket_for_hash 2 bugAfter (bugHash v.1) ≠ 1) := by
  decide

/-- C3 (code bug).  Evaluation of the failing input: on the reachable state
`bugAfter` (7 inserts, then `rehash(1)`), key 8 is absent, yet `insert((8, 80))`
returns `true` with `m_nb_elements` going from 7 to 6 — it decreases instead of
increasing by one, because the load-factor check triggers a growth rehash that
recounts the (previously silently lost) elements. -/
theorem claim_C3_insert_size_not_plus_one :
    find bugHash 2 bugAfter 8 = none
    ∧ bugAfter.nb_elements = 7
    ∧ (insert bugHash 2 20 bugAfter (8, 80)).map (fun r => (r.1.nb_elements, r.2.2))
        = some (6, true) := by decide

/-- A missing `hop_bits_go` scan leaves no set bit within its reach (no bound on
the bitmap needed: the scan stops only on an all-zero suffix or at the reach). -/
theorem hop_bits_go_none_all {fuel it infos : Nat}
    (h : hop_bits_go fuel it infos = none) :
    ∀ d, d < fuel → infos.testBit d = false := by
  induction fuel generalizing it infos with
  | zero =>
    intro d hd
    exact absurd hd (by omega)
  | succ fuel ih =>
    rw [hop_bits_go] at h
    split at h
    · next hz =>
      subst hz
      intro d _
      exact Nat.zero_testBit d
    · next hz =>
      split at h
      · exact Option.noConfusion h
      · next hbit =>
        intro d hd
        match d with
        | 0 =>
          rw [and_one_beq_one] at hbit
          simpa using hbit
        | d + 1 =>
          rw [← Nat.testBit_div_two]
          exact ih h d (by omega)

/-- Leastness of the hop-closer displacement: a successful
`swap_closer_go` run starting at `to_check` picked the lowest candidate home `c`
with a usable set bit (every strictly lower candidate has no set bit below the
empty bucket `e`), and within `c` the lowest set bit (`t - c`, every lower bit of
`c`'s bitmap clear). -/
theorem swap_closer_go_least {N : Nat} {m : HMap} :
    ∀ (fuel : Nat) {to_check e : Nat} {m' : HMap} {t : Nat},
      fuel = e - to_check → to_check ≤ e →
      swap_closer_go N m fuel to_check e = some (m', t) →
      ∃ c, to_check ≤ c ∧ c ≤ t ∧ t < e
        ∧ (getBucket m c).get_neighborhood_infos.testBit (t - c) = true
        ∧ (∀ k, k < t - c → (getBucket m c).get_neighborhood_infos.testBit k = false)
        ∧ (∀ c', to_check ≤ c' → c' < c → ∀ k, c' + k < e →
            (getBucket m c').get_neighborhood_infos.testBit k = false) := by
  intro fuel
  induction fuel with
  | zero =>
    intro to_check e m' t hf hle h
    exact Option.noConfusion h
  | succ fuel ih =>
    intro to_check e m' t hf hle h
    rw [swap_closer_go] at h
    cases hhop : hop_bits_go (fuel + 1) to_check
        (getBucket m to_check).get_neighborhood_infos with
    | some to_swap =>
      simp only [hhop] at h
      injection h with h
      have ht : t = to_swap := (congrArg Prod.snd h).symm
      subst ht
      obtain ⟨ha, hb, hc, hd⟩ := hop_bits_go_some hhop
      refine ⟨to_check, Nat.le_refl _, ha, by omega, hc, hd, ?_⟩
      intro c' h1 h2
      exact absurd (lt_of_le_of_lt h1 h2) (lt_irrefl _)
    | none =>
      simp only [hhop] at h
      have hlt : to_check < e := by omega
      obtain ⟨c, hc1, hc2, hc3, hc4, hc5, hc6⟩ := ih (by omega) (by omega) h
      refine ⟨c, by omega, hc2, hc3, hc4, hc5, ?_⟩
      intro c' h1 h2 k hk
      by_cases hcc : c' = to_check
      · rw [hcc]
        refine hop_bits_go_none_all hhop k (by omega)
      · exact hc6 c' (by omega) h2 k hk

/-- Leastness of `swap_empty_bucket_closer` over the candidate homes
`[e - N + 1, e)`. -/
theorem swap_empty_bucket_closer_least {N : Nat} {m : HMap} {e : Nat} {m' : HMap}
    {t : Nat} (hN : 1 ≤ N) (hNe : N ≤ e)
    (h : swap_empty_bucket_closer N m e = some (m', t)) :
    ∃ c, e - N + 1 ≤ c ∧ c ≤ t ∧ t < e
      ∧ (getBucket m c).get_neighborhood_infos.testBit (t - c) = true
      ∧ (∀ k, k < t - c → (getBucket m c).get_neighborhood_infos.testBit k = false)
      ∧ (∀ c', e - N + 1 ≤ c' → c' < c → ∀ k, c' + k < e →
          (getBucket m c').get_neighborhood_infos.testBit k = false) :=
  swap_closer_go_least (e - (e - N + 1)) rfl (by omega) h

/-- C5 (amended).  Hop-closer deterministically picks the lowest candidate home in
`[e - N + 1, e)` and, within it, the lowest set neighborhood bit.  In the spec's
concrete scenario (`N = 4`, identity hash, keys 0..4, the fifth insert), the entry
of bucket 1 does move to bucket 4 and bucket 1's bitmap flips bit 0 to bit 3 — but
bucket 0's bitmap does not stay unchanged: the new key lands in the freed bucket 1,
so bucket 0's bitmap gains bit 1 (going from `0b01` to `0b11`). -/
theorem claim_C5_hop_closer_deterministic :
    (∀ (N : Nat) (m : HMap) (e : Nat) (m' : HMap) (t : Nat), 1 ≤ N → N ≤ e →
      swap_empty_bucket_closer N m e = some (m', t) →
      ∃ c, e - N + 1 ≤ c ∧ c ≤ t ∧ t < e
        ∧ (getBucket m c).get_neighborhood_infos.testBit (t - c) = true
        ∧ (∀ k, k < t - c → (getBucket m c).get_neighborhood_infos.testBit k = false)
        ∧ (∀ c', e - N + 1 ≤ c' → c' < c → ∀ k, c' + k < e →
            (getBucket m c').get_neighborhood_infos.testBit k = false))
    ∧ (getBucket hop5After4 1).key_value = some (1, 1)
    ∧ (getBucket hop5After4 4).key_value = none
    ∧ (getBucket hop5After4 1).get_neighborhood_infos = 1
    ∧ (getBucket hop5After4 0).get_neighborhood_infos = 1
    ∧ (getBucket hop5After5 4).key_value = some (1, 1)
    ∧ (getBucket hop5After5 1).key_value = some (4, 40)
    ∧ (getBucket hop5After5 1).get_neighborhood_infos = 8
    ∧ (getBucket hop5After5 0).get_neighborhood_infos = 3 := by
  refine ⟨?_, by decide⟩
  intro N m e m' t hN hNe h
  exact swap_empty_bucket_closer_least hN hNe h

/-- Under the invariant, an empty bucket holds no pair. -/
theorem key_value_none_of_is_empty {hash : Nat → Nat} {N : Nat} {m : HMap}
    (hinv : Inv hash N m) {e : Nat} (h : (getBucket m e).is_empty = true) :
    (getBucket m e).key_value = none := by
  rw [is_empty_eq_not_testBit, hinv.occ e] at h
  cases hkv : (getBucket m e).key_value with
  | none => rfl
  | some kv =>
    rw [hkv] at h
    simp at h

/-- The linear probe either runs out (returning the array size) or stops at an
empty bucket at or after its start. -/
theorem find_empty_go_spec (m : HMap) : ∀ (fuel i : Nat),
    find_empty_go m fuel i = m.buckets.length
    ∨ (i ≤ find_empty_go m fuel i
        ∧ (getBucket m (find_empty_go m fuel i)).is_empty = true) := by
  intro fuel
  induction fuel with
  | zero =>
    intro i
    exact Or.inl rfl
  | succ fuel ih =>
    intro i
    rw [find_empty_go]
    by_cases h : (getBucket m i).is_empty = true
    · rw [if_pos h]
      exact Or.inr ⟨Nat.le_refl _, h⟩
    · rw [if_neg h]
      cases ih (i + 1) with
      | inl hl => exact Or.inl hl
      | inr hr => exact Or.inr ⟨by omega, hr.2⟩

/-- A successful probe (result inside the array) found an empty bucket at or after
its start. -/
theorem find_empty_bucket_spec {m : HMap} {i : Nat}
    (hlt : find_empty_bucket m i < m.buckets.length) :
    i ≤ find_empty_bucket m i
      ∧ (getBucket m (find_empty_bucket m i)).is_empty = true := by
  unfold find_empty_bucket at hlt ⊢
  cases find_empty_go_spec m
      (min (i + MAX_LINEAR_PROBE_SEARCH_EMPTY_BUCKET) m.buckets.length - i) i with
  | inl hl => omega
  | inr hr => exact hr

/-- `insert_in_bucket` (placing a new pair at an in-neighborhood empty bucket and
toggling the home's bit) preserves the structural invariant, fills exactly that
slot, keeps the overflow list and increments the count. -/
theorem insert_in_bucket_spec {hash : Nat → Nat} {N : Nat} {m : HMap}
    {kv : Nat × Nat} {i e : Nat} (hinv : Inv hash N m)
    (hhome : bucket_for_hash N m (hash kv.1) = i)
    (hie : i ≤ e) (heiN : e - i < N)
    (hempty : (getBucket m e).key_value = none)
    (helen : e < m.buckets.length) :
    Inv hash N (insert_in_bucket N m kv e i)
    ∧ (∀ j', (getBucket (insert_in_bucket N m kv e i) j').key_value
        = if j' = e then some kv else (getBucket m j').key_value)
    ∧ (insert_in_bucket N m kv e i).overflow_elements = m.overflow_elements
    ∧ (insert_in_bucket N m kv e i).nb_elements = m.nb_elements + 1
    ∧ (insert_in_bucket N m kv e i).load_threshold = m.load_threshold
    ∧ (insert_in_bucket N m kv e i).buckets.length = m.buckets.length := by
  have hilen : i < m.buckets.length := lt_of_le_of_lt hie helen
  have hioj : i + (e - i) = e := by omega
  have hW2 : 2 ≤ bitmapWidth N := bitmapWidth_ge_two N
  have hWb : 2 ^ (N + 2) ≤ 2 ^ bitmapWidth N :=
    Nat.pow_le_pow_right (by omega) (bitmapWidth_ge hinv.nmax)
  have hocc_e : (getBucket m e).neighborhood_infos.testBit 0 = false := by
    rw [hinv.occ e, hempty]
    rfl
  have hempB : (getBucket m e).is_empty = true := by
    rw [is_empty_eq_not_testBit, hocc_e]
    rfl
  have hbfalse : (getBucket m i).neighborhood_infos.testBit (e - i + 2) = false := by
    by_contra hc
    have hc' : (getBucket m i).neighborhood_infos.testBit (e - i + 2) = true := by
      cases hcc : (getBucket m i).neighborhood_infos.testBit (e - i + 2)
      · exact absurd hcc hc
      · rfl
    obtain ⟨-, -, kv', h3, -⟩ := hinv.sound i (e - i) hc'
    rw [hioj, hempty] at h3
    exact Option.noConfusion h3
  set W := bitmapWidth N with hWdef
  have hsk : (getBucket m e).set_key_value W kv
      = ⟨(getBucket m e).neighborhood_infos ||| 1, some kv⟩ := by
    simp only [Bucket.set_key_value, hempB, if_true, Bucket.set_is_empty,
      Bool.false_eq_true, if_false]
  set m1 := setBucket m e ((getBucket m e).set_key_value W kv) with hm1def
  have hm1 : ∀ j', getBucket m1 j'
      = if j' = e then Bucket.mk ((getBucket m e).neighborhood_infos ||| 1) (some kv)
        else getBucket m j' := by
    intro j'
    rw [hm1def, getBucket_setBucket, hsk]
    by_cases h : j' = e
    · subst h
      simp [helen]
    · have h2 : ¬ e = j' := fun hh => h hh.symm
      simp [h, h2]
  have hm1_bit : ∀ j' k, k ≠ 0 →
      (getBucket m1 j').neighborhood_infos.testBit k
        = (getBucket m j').neighborhood_infos.testBit k := by
    intro j' k hk
    rw [hm1]
    by_cases h : j' = e
    · rw [if_pos h, h]
      exact testBit_or_one_ne _ (by omega)
    · rw [if_neg h]
  have hm1_bit0 : ∀ j', (getBucket m1 j').neighborhood_infos.testBit 0
      = if j' = e then true else (getBucket m j').neighborhood_infos.testBit 0 := by
    intro j'
    rw [hm1]
    by_cases h : j' = e
    · rw [if_pos h, if_pos h]
      exact testBit_or_one_zero _
    · rw [if_neg h, if_neg h]
  have hm1_kv : ∀ j', (getBucket m1 j').key_value
      = if j' = e then some kv else (getBucket m j').key_value := by
    intro j'
    rw [hm1]
    by_cases h : j' = e
    · rw [if_pos h, if_pos h]
    · rw [if_neg h, if_neg h]
  have hm1_lt : ∀ j', (getBucket m1 j').neighborhood_infos < 2 ^ (N + 2) := by
    intro j'
    rw [hm1]
    by_cases h : j' = e
    · rw [if_pos h]
      refine Nat.or_lt_two_pow (hinv.bits e) ?_
      have : (4:Nat) ≤ 2 ^ (N + 2) := by
        calc (4:Nat) = 2 ^ 2 := rfl
        _ ≤ 2 ^ (N + 2) := Nat.pow_le_pow_right (by omega) (by omega)
      omega
    · rw [if_neg h]
      exact hinv.bits j'
  have hm1_len : m1.buckets.length = m.buckets.length := setBucket_length m e _
  have htog : ((getBucket m1 i).toggle_neighbor_presence W (e - i)).neighborhood_infos
      = (getBucket m1 i).neighborhood_infos ^^^ 2 ^ (e - i + 2) :=
    toggle_infos_eq _ _ (hm1_lt i) heiN hinv.nmax
  set m2 := setBucket m1 i ((getBucket m1 i).toggle_neighbor_presence W (e - i))
    with hm2def
  have hm2 : ∀ j', getBucket m2 j'
      = if j' = i then (getBucket m1 i).toggle_neighbor_presence W (e - i)
        else getBucket m1 j' := by
    intro j'
    rw [hm2def, getBucket_setBucket]
    by_cases h : j' = i
    · subst h
      simp [hm1_len, hilen]
    · have h2 : ¬ i = j' := fun hh => h hh.symm
      simp [h, h2]
  have hgF : ∀ j', getBucket (insert_in_bucket N m kv e i) j' = getBucket m2 j' :=
    fun j' => rfl
  have hlenF : (insert_in_bucket N m kv e i).buckets.length = m.buckets.length := by
    show m2.buckets.length = m.buckets.length
    rw [setBucket_length, hm1_len]
  have hcount : bucket_count N (insert_in_bucket N m kv e i) = bucket_count N m := by
    simp [bucket_count, hlenF]
  have hbfh : ∀ x, bucket_for_hash N (insert_in_bucket N m kv e i) x
      = bucket_for_hash N m x := by
    intro x
    simp [bucket_for_hash, hcount]
  have hF_kv : ∀ j', (getBucket (insert_in_bucket N m kv e i) j').key_value
      = if j' = e then some kv else (getBucket m j').key_value := by
    intro j'
    rw [hgF, hm2]
    by_cases h : j' = i
    · rw [if_pos h, toggle_key_value, hm1_kv, h]
    · rw [if_neg h, hm1_kv]
  have hF_bit : ∀ j' k, 1 ≤ k →
      (getBucket (insert_in_bucket N m kv e i) j').neighborhood_infos.testBit k
        = if j' = i ∧ k = e - i + 2
          then ! (getBucket m i).neighborhood_infos.testBit (e - i + 2)
          else (getBucket m j').neighborhood_infos.testBit k := by
    intro j' k hk
    rw [hgF, hm2]
    by_cases h : j' = i
    · rw [if_pos h, htog]
      by_cases hke : k = e - i + 2
      · rw [hke, testBit_xor_pow_self, hm1_bit _ _ (by omega)]
        simp [h, hke]
      · rw [testBit_xor_pow_ne _ (fun hh => hke hh.symm), hm1_bit _ _ (by omega)]
        simp [h, hke]
    · rw [if_neg h, hm1_bit _ _ (by omega)]
      have : ¬ (j' = i ∧ k = e - i + 2) := fun hh => h hh.1
      rw [if_neg this]
  have hF_bit0 : ∀ j',
      (getBucket (insert_in_bucket N m kv e i) j').neighborhood_infos.testBit 0
        = if j' = e then true
          else (getBucket m j').neighborhood_infos.testBit 0 := by
    intro j'
    rw [hgF, hm2]
    by_cases h : j' = i
    · rw [if_pos h, htog, testBit_xor_pow_ne _ (by omega), hm1_bit0, h]
    · rw [if_neg h, hm1_bit0]
  have hF_lt : ∀ j',
      (getBucket (insert_in_bucket N m kv e i) j').neighborhood_infos < 2 ^ (N + 2) := by
    intro j'
    rw [hgF, hm2]
    by_cases h : j' = i
    · rw [if_pos h, htog]
      exact Nat.xor_lt_two_pow (hm1_lt i)
        (Nat.pow_lt_pow_right (by omega) (by omega))
    · rw [if_neg h]
      exact hm1_lt j'
  refine ⟨?_, hF_kv, rfl, ?_, rfl, hlenF⟩
  · refine ⟨hinv.nsize, hinv.nmax, hcount ▸ hinv.pow, ?_, hF_lt, ?_, ?_, ?_⟩
    · rw [hcount, hlenF]
      exact hinv.len_eq
    · intro j'
      rw [hF_kv, hF_bit0]
      by_cases h : j' = e
      · simp [h]
      · rw [if_neg h, if_neg h]
        exact hinv.occ j'
    · intro c offc hbitc
      rw [hF_bit c (offc + 2) (by omega)] at hbitc
      by_cases hci : c = i ∧ offc + 2 = e - i + 2
      · have hce : c = i ∧ offc = e - i := ⟨hci.1, by omega⟩
        refine ⟨by omega, ?_, kv, ?_, ?_⟩
        · rw [hlenF, hce.1, hce.2, hioj]
          exact helen
        · rw [hF_kv, hce.1, hce.2, hioj, if_pos rfl]
        · rw [hbfh, hce.1]
          exact hhome
      · rw [if_neg hci] at hbitc
        obtain ⟨h1, h2, kv', h3, h4⟩ := hinv.sound c offc hbitc
        have hne : c + offc ≠ e := by
          intro he'
          rw [he', hempty] at h3
          exact Option.noConfusion h3
        refine ⟨h1, by rw [hlenF]; exact h2, kv', ?_, ?_⟩
        · rw [hF_kv, if_neg hne]
          exact h3
        · rw [hbfh]
          exact h4
    · intro j' kv' hkv'
      rw [hF_kv] at hkv'
      by_cases h : j' = e
      · rw [if_pos h] at hkv'
        injection hkv' with hkv'
        have hk1 : kv'.1 = kv.1 := by rw [← hkv']
        rw [h, hk1, hbfh, hhome]
        refine ⟨hie, heiN, ?_⟩
        rw [hF_bit i (e - i + 2) (by omega), if_pos ⟨rfl, rfl⟩, hbfalse]
        rfl
      · rw [if_neg h] at hkv'
        obtain ⟨h1, h2, h3⟩ := hinv.complete j' kv' hkv'
        rw [hbfh, hF_bit _ _ (by omega)]
        have hne : ¬ (bucket_for_hash N m (hash kv'.1) = i
            ∧ j' - bucket_for_hash N m (hash kv'.1) + 2 = e - i + 2) := by
          intro hh
          apply h
          omega
        rw [if_neg hne]
        exact ⟨h1, h2, h3⟩
  · show m2.nb_elements + 1 = m.nb_elements + 1
    rw [hm2def, setBucket_nb_elements, hm1def, setBucket_nb_elements]

/-- A single successful hop of `swap_empty_bucket_closer` (move the entry of
`t`, whose home is the candidate `c`, into the empty bucket `e`, and toggle bits
`e - c` and `t - c` of `c`'s bitmap): the structural invariant survives, the entry
moves from slot `t` to slot `e`, and the list shape, the count and the threshold
are untouched. -/
theorem swap_step_spec {hash : Nat → Nat} {N : Nat} {m : HMap} {c t e : Nat}
    {m1 m2 m3 : HMap} (hinv : Inv hash N m)
    (hct : c ≤ t) (hte : t < e) (heN : e - c < N)
    (hbit : (getBucket m c).neighborhood_infos.testBit (t - c + 2) = true)
    (hempty : (getBucket m e).key_value = none)
    (helen : e < m.buckets.length)
    (hm1e : m1 = setBucket (setBucket m t (swap_key_value_with_empty_bucket
        (bitmapWidth N) (getBucket m t) (getBucket m e)).1) e
        (swap_key_value_with_empty_bucket (bitmapWidth N) (getBucket m t)
          (getBucket m e)).2)
    (hm2e : m2 = setBucket m1 c ((getBucket m1 c).toggle_neighbor_presence
        (bitmapWidth N) (e - c)))
    (hm3e : m3 = setBucket m2 c ((getBucket m2 c).toggle_neighbor_presence
        (bitmapWidth N) (t - c))) :
    Inv hash N m3
    ∧ (getBucket m3 t).key_value = none
    ∧ m3.overflow_elements = m.overflow_elements
    ∧ m3.nb_elements = m.nb_elements
    ∧ m3.load_threshold = m.load_threshold
    ∧ m3.buckets.length = m.buckets.length := by
  obtain ⟨hsN, -, kv_s, hkvs, hhome_s⟩ := hinv.sound c (t - c) hbit
  have hctt : c + (t - c) = t := by omega
  rw [hctt] at hkvs
  have hW2 : 2 ≤ bitmapWidth N := bitmapWidth_ge_two N
  have hWb : 2 ^ (N + 2) ≤ 2 ^ bitmapWidth N :=
    Nat.pow_le_pow_right (by omega) (bitmapWidth_ge hinv.nmax)
  have htlen : t < m.buckets.length := lt_length_of_key_value hkvs
  have hclen : c < m.buckets.length := by omega
  have hce : c + (e - c) = e := by omega
  have hte' : t ≠ e := by omega
  have hocc_t : (getBucket m t).neighborhood_infos.testBit 0 = true := by
    rw [hinv.occ t, hkvs]
    rfl
  have hempB_t : (getBucket m t).is_empty = false := by
    rw [is_empty_eq_not_testBit, hocc_t]
    rfl
  have hbite : (getBucket m c).neighborhood_infos.testBit (e - c + 2) = false := by
    by_contra hcon
    have hc' : (getBucket m c).neighborhood_infos.testBit (e - c + 2) = true := by
      cases hcc : (getBucket m c).neighborhood_infos.testBit (e - c + 2)
      · exact absurd hcc hcon
      · rfl
    obtain ⟨-, -, kv', h3, -⟩ := hinv.sound c (e - c) hc'
    rw [hce, hempty] at h3
    exact Option.noConfusion h3
  set W := bitmapWidth N with hWdef
  have hsw : swap_key_value_with_empty_bucket W (getBucket m t) (getBucket m e)
      = (⟨(getBucket m t).neighborhood_infos &&& (2 ^ W - 2), none⟩,
         ⟨(getBucket m e).neighborhood_infos ||| 1, some kv_s⟩) := by
    simp only [swap_key_value_with_empty_bucket, hempB_t, Bool.false_eq_true, if_false,
      Bucket.set_is_empty, if_true, hkvs]
  have hm1 : ∀ j', getBucket m1 j'
      = if j' = e then Bucket.mk ((getBucket m e).neighborhood_infos ||| 1) (some kv_s)
        else if j' = t
          then Bucket.mk ((getBucket m t).neighborhood_infos &&& (2 ^ W - 2)) none
          else getBucket m j' := by
    intro j'
    rw [hm1e, hsw, getBucket_setBucket, getBucket_setBucket]
    by_cases h : j' = e
    · rw [if_pos h, if_pos ⟨h.symm, by rw [setBucket_length]; exact helen⟩]
    · rw [if_neg h, if_neg (fun hh => h hh.1.symm)]
      by_cases h2 : j' = t
      · rw [if_pos h2, if_pos ⟨h2.symm, htlen⟩]
      · rw [if_neg h2, if_neg (fun hh => h2 hh.1.symm)]
  have hm1_bit : ∀ j' k, k ≠ 0 →
      (getBucket m1 j').neighborhood_infos.testBit k
        = (getBucket m j').neighborhood_infos.testBit k := by
    intro j' k hk
    rw [hm1]
    by_cases h : j' = e
    · rw [if_pos h, h]
      exact testBit_or_one_ne _ (by omega)
    · rw [if_neg h]
      by_cases h2 : j' = t
      · rw [if_pos h2, h2]
        show ((getBucket m t).neighborhood_infos &&& (2 ^ W - 2)).testBit k = _
        rw [testBit_and_mask_one (by omega) _ (lt_of_lt_of_le (hinv.bits t) hWb)]
        simp [hk]
      · rw [if_neg h2]
  have hm1_bit0 : ∀ j', (getBucket m1 j').neighborhood_infos.testBit 0
      = if j' = e then true else if j' = t then false
        else (getBucket m j').neighborhood_infos.testBit 0 := by
    intro j'
    rw [hm1]
    by_cases h : j' = e
    · rw [if_pos h, if_pos h]
      exact testBit_or_one_zero _
    · rw [if_neg h, if_neg h]
      by_cases h2 : j' = t
      · rw [if_pos h2, if_pos h2]
        show ((getBucket m t).neighborhood_infos &&& (2 ^ W - 2)).testBit 0 = false
        rw [testBit_and_mask_one (by omega) _ (lt_of_lt_of_le (hinv.bits t) hWb)]
        simp
      · rw [if_neg h2, if_neg h2]
  have hm1_kv : ∀ j', (getBucket m1 j').key_value
      = if j' = e then some kv_s else if j' = t then none
        else (getBucket m j').key_value := by
    intro j'
    rw [hm1]
    by_cases h : j' = e
    · rw [if_pos h, if_pos h]
    · rw [if_neg h, if_neg h]
      by_cases h2 : j' = t
      · rw [if_pos h2, if_pos h2]
      · rw [if_neg h2, if_neg h2]
  have hm1_lt : ∀ j', (getBucket m1 j').neighborhood_infos < 2 ^ (N + 2) := by
    intro j'
    rw [hm1]
    by_cases h : j' = e
    · rw [if_pos h]
      refine Nat.or_lt_two_pow (hinv.bits e) ?_
      have : (4:Nat) ≤ 2 ^ (N + 2) := by
        calc (4:Nat) = 2 ^ 2 := rfl
        _ ≤ 2 ^ (N + 2) := Nat.pow_le_pow_right (by omega) (by omega)
      omega
    · rw [if_neg h]
      by_cases h2 : j' = t
      · rw [if_pos h2]
        exact lt_of_le_of_lt Nat.and_le_left (hinv.bits t)
      · rw [if_neg h2]
        exact hinv.bits j'
  have hm1_len : m1.buckets.length = m.buckets.length := by
    rw [hm1e, setBucket_length, setBucket_length]
  have htog1 : ((getBucket m1 c).toggle_neighbor_presence W (e - c)).neighborhood_infos
      = (getBucket m1 c).neighborhood_infos ^^^ 2 ^ (e - c + 2) :=
    toggle_infos_eq _ _ (hm1_lt c) heN hinv.nmax
  have hm2 : ∀ j', getBucket m2 j'
      = if j' = c then (getBucket m1 c).toggle_neighbor_presence W (e - c)
        else getBucket m1 j' := by
    intro j'
    rw [hm2e, getBucket_setBucket]
    by_cases h : j' = c
    · rw [if_pos h, if_pos ⟨h.symm, by rw [hm1_len]; exact hclen⟩]
    · rw [if_neg h, if_neg (fun hh => h hh.1.symm)]
  have hm2_kv : ∀ j', (getBucket m2 j').key_value = (getBucket m1 j').key_value := by
    intro j'
    rw [hm2]
    by_cases h : j' = c
    · rw [if_pos h, toggle_key_value, h]
    · rw [if_neg h]
  have hm2_bit : ∀ j' k,
      (getBucket m2 j').neighborhood_infos.testBit k
        = if j' = c ∧ k = e - c + 2
          then ! (getBucket m1 c).neighborhood_infos.testBit k
          else (getBucket m1 j').neighborhood_infos.testBit k := by
    intro j' k
    rw [hm2]
    by_cases h : j' = c
    · rw [if_pos h, htog1]
      by_cases hke : k = e - c + 2
      · rw [hke, testBit_xor_pow_self]
        simp [h, hke]
      · rw [testBit_xor_pow_ne _ (fun hh => hke hh.symm)]
        simp [h, hke]
    · rw [if_neg h]
      have : ¬ (j' = c ∧ k = e - c + 2) := fun hh => h hh.1
      rw [if_neg this]
  have hm2_lt : ∀ j', (getBucket m2 j').neighborhood_infos < 2 ^ (N + 2) := by
    intro j'
    rw [hm2]
    by_cases h : j' = c
    · rw [if_pos h, htog1]
      exact Nat.xor_lt_two_pow (hm1_lt c)
        (Nat.pow_lt_pow_right (by omega) (by omega))
    · rw [if_neg h]
      exact hm1_lt j'
  have hm2_len : m2.buckets.length = m.buckets.length := by
    rw [hm2e, setBucket_length, hm1_len]
  have htog2 : ((getBucket m2 c).toggle_neighbor_presence W (t - c)).neighborhood_infos
      = (getBucket m2 c).neighborhood_infos ^^^ 2 ^ (t - c + 2) :=
    toggle_infos_eq _ _ (hm2_lt c) (by omega) hinv.nmax
  have hm3 : ∀ j', getBucket m3 j'
      = if j' = c then (getBucket m2 c).toggle_neighbor_presence W (t - c)
        else getBucket m2 j' := by
    intro j'
    rw [hm3e, getBucket_setBucket]
    by_cases h : j' = c
    · rw [if_pos h, if_pos ⟨h.symm, by rw [hm2_len]; exact hclen⟩]
    · rw [if_neg h, if_neg (fun hh => h hh.1.symm)]
  have hF_kv : ∀ j', (getBucket m3 j').key_value
      = if j' = e then some kv_s else if j' = t then none
        else (getBucket m j').key_value := by
    intro j'
    rw [hm3]
    by_cases h : j' = c
    · rw [if_pos h, toggle_key_value, hm2_kv, hm1_kv, h]
    · rw [if_neg h, hm2_kv, hm1_kv]
  have hnecet : e - c + 2 ≠ t - c + 2 := by omega
  have hF_bit_ct : (getBucket m3 c).neighborhood_infos.testBit (t - c + 2)
      = ! (getBucket m c).neighborhood_infos.testBit (t - c + 2) := by
    rw [hm3, if_pos rfl, htog2, testBit_xor_pow_self, hm2_bit,
      if_neg (fun hh => hnecet hh.2.symm), hm1_bit _ _ (by omega)]
  have hF_bit_ce : (getBucket m3 c).neighborhood_infos.testBit (e - c + 2)
      = ! (getBucket m c).neighborhood_infos.testBit (e - c + 2) := by
    rw [hm3, if_pos rfl, htog2, testBit_xor_pow_ne _ (fun hh => hnecet hh.symm),
      hm2_bit, if_pos ⟨rfl, rfl⟩, hm1_bit _ _ (by omega)]
  have hF_bit_other : ∀ j' k, 1 ≤ k →
      (j' ≠ c ∨ (k ≠ e - c + 2 ∧ k ≠ t - c + 2)) →
      (getBucket m3 j').neighborhood_infos.testBit k
        = (getBucket m j').neighborhood_infos.testBit k := by
    intro j' k hk hd
    rw [hm3]
    by_cases h : j' = c
    · have hkk : k ≠ e - c + 2 ∧ k ≠ t - c + 2 := by
        cases hd with
        | inl hl => exact absurd h hl
        | inr hr => exact hr
      rw [if_pos h, htog2, testBit_xor_pow_ne _ (fun hh => hkk.2 hh.symm), hm2_bit,
        if_neg (fun hh => hkk.1 hh.2), hm1_bit _ _ (by omega), h]
    · rw [if_neg h, hm2_bit, if_neg (fun hh => h hh.1), hm1_bit _ _ (by omega)]
  have hF_bit0 : ∀ j',
      (getBucket m3 j').neighborhood_infos.testBit 0
        = if j' = e then true else if j' = t then false
          else (getBucket m j').neighborhood_infos.testBit 0 := by
    intro j'
    rw [hm3]
    by_cases h : j' = c
    · rw [if_pos h, htog2, testBit_xor_pow_ne _ (by omega), hm2_bit]
      rw [if_neg (by omega), hm1_bit0, h]
    · rw [if_neg h, hm2_bit, if_neg (by omega), hm1_bit0]
  have hF_lt : ∀ j', (getBucket m3 j').neighborhood_infos < 2 ^ (N + 2) := by
    intro j'
    rw [hm3]
    by_cases h : j' = c
    · rw [if_pos h, htog2]
      exact Nat.xor_lt_two_pow (hm2_lt c)
        (Nat.pow_lt_pow_right (by omega) (by omega))
    · rw [if_neg h]
      exact hm2_lt j'
  have hlenF : m3.buckets.length = m.buckets.length := by
    rw [hm3e, setBucket_length, hm2_len]
  have hcount : bucket_count N m3 = bucket_count N m := by
    simp [bucket_count, hlenF]
  have hbfh : ∀ x, bucket_for_hash N m3 x = bucket_for_hash N m x := by
    intro x
    simp [bucket_for_hash, hcount]
  have hover : m3.overflow_elements = m.overflow_elements := by
    rw [hm3e, setBucket_overflow_elements, hm2e, setBucket_overflow_elements, hm1e,
      setBucket_overflow_elements, setBucket_overflow_elements]
  have hnb : m3.nb_elements = m.nb_elements := by
    rw [hm3e, setBucket_nb_elements, hm2e, setBucket_nb_elements, hm1e,
      setBucket_nb_elements, setBucket_nb_elements]
  have hthr : m3.load_threshold = m.load_threshold := by
    rw [hm3e, hm2e, hm1e]
    rfl
  refine ⟨?_, ?_, hover, hnb, hthr, hlenF⟩
  · refine ⟨hinv.nsize, hinv.nmax, hcount ▸ hinv.pow, ?_, hF_lt, ?_, ?_, ?_⟩
    · rw [hcount, hlenF]
      exact hinv.len_eq
    · intro j'
      rw [hF_kv, hF_bit0]
      by_cases h : j' = e
      · simp [h]
      · rw [if_neg h, if_neg h]
        by_cases h2 : j' = t
        · simp [h2]
        · rw [if_neg h2, if_neg h2]
          exact hinv.occ j'
    · intro c₂ off hbitc
      by_cases hc1 : c₂ = c ∧ off = e - c
      · refine ⟨by omega, ?_, kv_s, ?_, ?_⟩
        · rw [hlenF, hc1.1, hc1.2, hce]
          exact helen
        · rw [hF_kv, hc1.1, hc1.2, hce, if_pos rfl]
        · rw [hbfh, hc1.1]
          exact hhome_s
      · by_cases hc2 : c₂ = c ∧ off = t - c
        · rw [hc2.1, hc2.2, hF_bit_ct, hbit] at hbitc
          exact Bool.noConfusion hbitc
        · have hdis : c₂ ≠ c ∨ (off + 2 ≠ e - c + 2 ∧ off + 2 ≠ t - c + 2) := by
            by_cases hcc : c₂ = c
            · right
              omega
            · left
              exact hcc
          rw [hF_bit_other c₂ (off + 2) (by omega) hdis] at hbitc
          obtain ⟨h1, h2, kv', h3, h4⟩ := hinv.sound c₂ off hbitc
          have hnee : c₂ + off ≠ e := by
            intro he'
            rw [he', hempty] at h3
            exact Option.noConfusion h3
          have hnet : c₂ + off ≠ t := by
            intro ht'
            rw [ht', hkvs] at h3
            injection h3 with h3
            rw [← h3] at h4
            have hc₂c : c₂ = c := h4.symm.trans hhome_s
            exact hc2 ⟨hc₂c, by omega⟩
          refine ⟨h1, by rw [hlenF]; exact h2, kv', ?_, ?_⟩
          · rw [hF_kv, if_neg hnee, if_neg hnet]
            exact h3
          · rw [hbfh]
            exact h4
    · intro j' kv' hkv'
      rw [hF_kv] at hkv'
      by_cases h : j' = e
      · rw [if_pos h] at hkv'
        injection hkv' with hkv'
        have hk1 : kv'.1 = kv_s.1 := by rw [← hkv']
        rw [h, hk1, hbfh, hhome_s]
        refine ⟨by omega, by omega, ?_⟩
        rw [hF_bit_ce, hbite]
        rfl
      · rw [if_neg h] at hkv'
        by_cases h2 : j' = t
        · rw [if_pos h2] at hkv'
          exact Option.noConfusion hkv'
        · rw [if_neg h2] at hkv'
          obtain ⟨h1, h2', h3⟩ := hinv.complete j' kv' hkv'
          rw [hbfh]
          have hdis : bucket_for_hash N m (hash kv'.1) ≠ c
              ∨ (j' - bucket_for_hash N m (hash kv'.1) + 2 ≠ e - c + 2
                  ∧ j' - bucket_for_hash N m (hash kv'.1) + 2 ≠ t - c + 2) := by
            by_cases hcc : bucket_for_hash N m (hash kv'.1) = c
            · right
              refine ⟨fun heq => h ?_, fun heq => h2 ?_⟩ <;> omega
            · left
              exact hcc
          rw [hF_bit_other _ _ (by omega) hdis]
          exact ⟨h1, h2', h3⟩
  · rw [hF_kv, if_neg hte', if_pos rfl]

/-- The displacement scan preserves the structural invariant: a successful
`swap_closer_go` yields a valid map with the empty slot moved down to the returned
index, everything else (shape, overflow list, count, threshold) untouched. -/
theorem swap_closer_go_inv {hash : Nat → Nat} {N : Nat} {m : HMap}
    (hinv : Inv hash N m) :
    ∀ (fuel : Nat) {to_check e : Nat} {m' : HMap} {t : Nat},
      fuel = e - to_check → e - to_check < N →
      (getBucket m e).key_value = none → e < m.buckets.length →
      swap_closer_go N m fuel to_check e = some (m', t) →
      Inv hash N m' ∧ (getBucket m' t).key_value = none ∧ to_check ≤ t ∧ t < e
        ∧ m'.buckets.length = m.buckets.length
        ∧ m'.overflow_elements = m.overflow_elements
        ∧ m'.nb_elements = m.nb_elements
        ∧ m'.load_threshold = m.load_threshold := by
  intro fuel
  induction fuel with
  | zero =>
    intro to_check e m' t hf hfN hempty helen h
    exact Option.noConfusion h
  | succ fuel ih =>
    intro to_check e m' t hf hfN hempty helen h
    rw [swap_closer_go] at h
    cases hhop : hop_bits_go (fuel + 1) to_check
        (getBucket m to_check).get_neighborhood_infos with
    | some to_swap =>
      simp only [hhop] at h
      injection h with h
      injection h with hA hB
      subst hB
      obtain ⟨ha, hb, hc, -⟩ := hop_bits_go_some hhop
      rw [get_neighborhood_infos_testBit] at hc
      have hte : to_swap < e := by omega
      obtain ⟨hi3, hkv3, hov3, hnb3, hth3, hlen3⟩ :=
        swap_step_spec hinv ha hte (by omega) hc hempty helen rfl rfl rfl
      rw [hA] at hi3 hkv3 hov3 hnb3 hth3 hlen3
      exact ⟨hi3, hkv3, ha, hte, hlen3, hov3, hnb3, hth3⟩
    | none =>
      simp only [hhop] at h
      have hlt : to_check < e := by omega
      obtain ⟨h1, h2, h3, h4, h5, h6, h7, h8⟩ := ih (by omega) (by omega) hempty helen h
      exact ⟨h1, h2, by omega, h4, h5, h6, h7, h8⟩

/-- Length-preserving rewrites keep every home bucket. -/
theorem bucket_for_hash_congr {N : Nat} {m m' : HMap}
    (h : m'.buckets.length = m.buckets.length) (x : Nat) :
    bucket_for_hash N m' x = bucket_for_hash N m x := by
  simp [bucket_for_hash, bucket_count, h]

/-- The `insert_internal` displacement loop preserves the structural invariant:
a successful placement increments the count by one; a failed loop hands back a
valid map with the count unchanged.  The overflow list, the threshold and the
array length survive either way. -/
theorem insert_loop_go_inv {hash : Nat → Nat} {N : Nat} {kv : Nat × Nat} {i : Nat} :
    ∀ (fuel : Nat) (m : HMap) (e : Nat), Inv hash N m →
      bucket_for_hash N m (hash kv.1) = i →
      (getBucket m e).key_value = none → e < m.buckets.length →
      (∀ m1 e1, insert_loop_go N fuel m kv i e = Sum.inl (m1, e1) →
        Inv hash N m1 ∧ m1.overflow_elements = m.overflow_elements
          ∧ m1.nb_elements = m.nb_elements + 1 ∧ m1.load_threshold = m.load_threshold
          ∧ m1.buckets.length = m.buckets.length)
      ∧ (∀ m1 e1, insert_loop_go N fuel m kv i e = Sum.inr (m1, e1) →
        Inv hash N m1 ∧ m1.overflow_elements = m.overflow_elements
          ∧ m1.nb_elements = m.nb_elements ∧ m1.load_threshold = m.load_threshold
          ∧ m1.buckets.length = m.buckets.length) := by
  intro fuel
  induction fuel with
  | zero =>
    intro m e hinv hhome hempty helen
    constructor
    · intro m1 e1 h
      exact Sum.noConfusion h
    · intro m1 e1 h
      rw [insert_loop_go] at h
      injection h with h
      have hm1 : m1 = m := (congrArg Prod.fst h).symm
      subst hm1
      exact ⟨hinv, rfl, rfl, rfl, rfl⟩
  | succ fuel ih =>
    intro m e hinv hhome hempty helen
    constructor
    · intro m1 e1 h
      rw [insert_loop_go] at h
      split at h
      · next hin =>
        injection h with h
        have hm1 : m1 = insert_in_bucket N m kv e i := (congrArg Prod.fst h).symm
        subst hm1
        obtain ⟨g1, -, g3, g4, g5, g6⟩ :=
          insert_in_bucket_spec hinv hhome hin.1 hin.2 hempty helen
        exact ⟨g1, g3, g4, g5, g6⟩
      · next hin =>
        cases hsw : swap_empty_bucket_closer N m e with
        | some me =>
          simp only [hsw] at h
          obtain ⟨s1, s2, s3, s4, s5, s6, s7, s8⟩ :=
            swap_closer_go_inv hinv (e - (e - N + 1)) rfl
              (by have := hinv.nsize; omega) hempty helen hsw
          have hhome' : bucket_for_hash N me.1 (hash kv.1) = i := by
            rw [bucket_for_hash_congr s5]
            exact hhome
          obtain ⟨ih1, -⟩ := ih me.1 me.2 s1 hhome' s2 (by omega)
          obtain ⟨g1, g2, g3, g4, g5⟩ := ih1 m1 e1 h
          exact ⟨g1, by rw [g2, s6], by rw [g3, s7], by rw [g4, s8], by rw [g5, s5]⟩
        | none =>
          simp only [hsw] at h
          exact Sum.noConfusion h
    · intro m1 e1 h
      rw [insert_loop_go] at h
      split at h
      · exact Sum.noConfusion h
      · next hin =>
        cases hsw : swap_empty_bucket_closer N m e with
        | some me =>
          simp only [hsw] at h
          obtain ⟨s1, s2, s3, s4, s5, s6, s7, s8⟩ :=
            swap_closer_go_inv hinv (e - (e - N + 1)) rfl
              (by have := hinv.nsize; omega) hempty helen hsw
          have hhome' : bucket_for_hash N me.1 (hash kv.1) = i := by
            rw [bucket_for_hash_congr s5]
            exact hhome
          obtain ⟨-, ih2⟩ := ih me.1 me.2 s1 hhome' s2 (by omega)
          obtain ⟨g1, g2, g3, g4, g5⟩ := ih2 m1 e1 h
          exact ⟨g1, by rw [g2, s6], by rw [g3, s7], by rw [g4, s8], by rw [g5, s5]⟩
        | none =>
          simp only [hsw] at h
          injection h with h
          have hm1 : m1 = m := (congrArg Prod.fst h).symm
          subst hm1
          exact ⟨hinv, rfl, rfl, rfl, rfl⟩

/-- Setting the overflow flags of the spliced entries preserves the structural
invariant. -/
theorem Inv_set_overflow_flags {hash : Nat → Nat} {N : Nat} :
    ∀ (l : List (Nat × Nat)) (m : HMap), Inv hash N m →
      Inv hash N (set_overflow_flags hash N m l) := by
  intro l
  induction l with
  | nil =>
    intro m h
    exact h
  | cons kv rest ih =>
    intro m h
    rw [set_overflow_flags]
    exact ih _ (Inv_set_overflow _ true h)

/-- Every terminating run of the interpreter preserves the structural invariant:
a valid `insert_internal` request (valid map, home-bucket argument), any rehash
request, and a re-insertion request over a valid temporary map all answer with a
valid map. -/
theorem exec_inv {hash : Nat → Nat} {N : Nat} (hN1 : 1 ≤ N) (hN2 : N ≤ 62) :
    ∀ (fuel : Nat) (req : Req) (r : (HMap × Pos × Bool) ⊕ HMap),
      ReqOK hash N req → exec hash N fuel req = some r → ResOK hash N r := by
  intro fuel
  induction fuel with
  | zero =>
    intro req r hok h
    rw [exec] at h
    exact Option.noConfusion h
  | succ fuel ih =>
    intro req r hok h
    cases req with
    | ins m0 kv i =>
      obtain ⟨hinv0, hhome0⟩ := hok
      simp only [exec] at h
      by_cases hload : m0.nb_elements + 1 > m0.load_threshold
      · rw [if_pos hload] at h
        cases hreh0 : exec hash N fuel (.reh m0 (get_expand_size N m0)) with
        | none =>
          simp only [hreh0] at h
          exact Option.noConfusion h
        | some rr =>
          cases rr with
          | inl x =>
            simp only [hreh0] at h
            exact Option.noConfusion h
          | inr mL =>
            simp only [hreh0] at h
            have hinvL : Inv hash N mL :=
              ih (.reh m0 (get_expand_size N m0)) (Sum.inr mL) trivial hreh0
            by_cases hprobe : find_empty_bucket mL (bucket_for_hash N mL (hash kv.1))
                < mL.buckets.length
            · rw [if_pos hprobe] at h
              obtain ⟨hpe, hpem⟩ := find_empty_bucket_spec hprobe
              have hempty := key_value_none_of_is_empty hinvL hpem
              cases hloop : insert_loop N mL kv (bucket_for_hash N mL (hash kv.1))
                  (find_empty_bucket mL (bucket_for_hash N mL (hash kv.1))) with
              | inl me =>
                simp only [hloop] at h
                injection h with h
                subst h
                obtain ⟨hil, -⟩ := insert_loop_go_inv
                  (find_empty_bucket mL (bucket_for_hash N mL (hash kv.1)) + 1) mL
                  (find_empty_bucket mL (bucket_for_hash N mL (hash kv.1)))
                  hinvL rfl hempty hprobe
                exact (hil me.1 me.2 hloop).1
              | inr me =>
                simp only [hloop] at h
                obtain ⟨-, hir⟩ := insert_loop_go_inv
                  (find_empty_bucket mL (bucket_for_hash N mL (hash kv.1)) + 1) mL
                  (find_empty_bucket mL (bucket_for_hash N mL (hash kv.1)))
                  hinvL rfl hempty hprobe
                obtain ⟨hIme, -, -, -, -⟩ := hir me.1 me.2 hloop
                cases hwcv : will_neighborhood_change_on_rehash hash N me.1
                    (bucket_for_hash N mL (hash kv.1)) with
                | false =>
                  simp only [hwcv] at h
                  injection h with h
                  subst h
                  show Inv hash N _
                  have hmo : Inv hash N { me.1 with overflow_elements := me.1.overflow_elements ++ [kv] } := by
                    refine Inv.congr_buckets ?_ hIme
                    rfl
                  refine Inv.congr_buckets ?_
                    (Inv_set_overflow (bucket_for_hash N mL (hash kv.1)) true hmo)
                  rfl
                | true =>
                  simp only [hwcv] at h
                  cases hreh : exec hash N fuel
                      (.reh me.1 (get_expand_size N me.1)) with
                  | none =>
                    simp only [hreh] at h
                    exact Option.noConfusion h
                  | some rr2 =>
                    cases rr2 with
                    | inl x =>
                      simp only [hreh] at h
                      exact Option.noConfusion h
                    | inr m2 =>
                      simp only [hreh] at h
                      have hInv2 : Inv hash N m2 :=
                        ih (.reh me.1 (get_expand_size N me.1)) (Sum.inr m2) trivial hreh
                      exact ih (.ins m2 kv (bucket_for_hash N m2 (hash kv.1))) r
                        ⟨hInv2, rfl⟩ h
            · rw [if_neg hprobe] at h
              cases hreh : exec hash N fuel (.reh mL (get_expand_size N mL)) with
              | none =>
                simp only [hreh] at h
                exact Option.noConfusion h
              | some rr2 =>
                cases rr2 with
                | inl x =>
                  simp only [hreh] at h
                  exact Option.noConfusion h
                | inr m2 =>
                  simp only [hreh] at h
                  have hInv2 : Inv hash N m2 :=
                    ih (.reh mL (get_expand_size N mL)) (Sum.inr m2) trivial hreh
                  exact ih (.ins m2 kv (bucket_for_hash N m2 (hash kv.1))) r
                    ⟨hInv2, rfl⟩ h
      · rw [if_neg hload] at h
        by_cases hprobe : find_empty_bucket m0 i < m0.buckets.length
        · rw [if_pos hprobe] at h
          obtain ⟨hpe, hpem⟩ := find_empty_bucket_spec hprobe
          have hempty := key_value_none_of_is_empty hinv0 hpem
          cases hloop : insert_loop N m0 kv i (find_empty_bucket m0 i) with
          | inl me =>
            simp only [hloop] at h
            injection h with h
            subst h
            obtain ⟨hil, -⟩ := insert_loop_go_inv (find_empty_bucket m0 i + 1) m0
              (find_empty_bucket m0 i) hinv0 hhome0 hempty hprobe
            exact (hil me.1 me.2 hloop).1
          | inr me =>
            simp only [hloop] at h
            obtain ⟨-, hir⟩ := insert_loop_go_inv (find_empty_bucket m0 i + 1) m0
              (find_empty_bucket m0 i) hinv0 hhome0 hempty hprobe
            obtain ⟨hIme, -, -, -, -⟩ := hir me.1 me.2 hloop
            cases hwcv : will_neighborhood_change_on_rehash hash N me.1 i with
            | false =>
              simp only [hwcv] at h
              injection h with h
              subst h
              show Inv hash N _
              have hmo : Inv hash N { me.1 with overflow_elements := me.1.overflow_elements ++ [kv] } := by
                refine Inv.congr_buckets ?_ hIme
                rfl
              refine Inv.congr_buckets ?_ (Inv_set_overflow i true hmo)
              rfl
            | true =>
              simp only [hwcv] at h
              cases hreh : exec hash N fuel (.reh me.1 (get_expand_size N me.1)) with
              | none =>
                simp only [hreh] at h
                exact Option.noConfusion h
              | some rr2 =>
                cases rr2 with
                | inl x =>
                  simp only [hreh] at h
                  exact Option.noConfusion h
                | inr m2 =>
                  simp only [hreh] at h
                  have hInv2 : Inv hash N m2 :=
                    ih (.reh me.1 (get_expand_size N me.1)) (Sum.inr m2) trivial hreh
                  exact ih (.ins m2 kv (bucket_for_hash N m2 (hash kv.1))) r
                    ⟨hInv2, rfl⟩ h
        · rw [if_neg hprobe] at h
          cases hreh : exec hash N fuel (.reh m0 (get_expand_size N m0)) with
          | none =>
            simp only [hreh] at h
            exact Option.noConfusion h
          | some rr2 =>
            cases rr2 with
            | inl x =>
              simp only [hreh] at h
              exact Option.noConfusion h
            | inr m2 =>
              simp only [hreh] at h
              have hInv2 : Inv hash N m2 :=
                ih (.reh m0 (get_expand_size N m0)) (Sum.inr m2) trivial hreh
              exact ih (.ins m2 kv (bucket_for_hash N m2 (hash kv.1))) r
                ⟨hInv2, rfl⟩ h
    | rei tmp bs =>
      cases bs with
      | nil =>
        simp only [exec] at h
        injection h with h
        subst h
        exact hok
      | cons b rest =>
        simp only [exec] at h
        by_cases hbe : b.is_empty = true
        · rw [if_pos hbe] at h
          exact ih (.rei tmp rest) r hok h
        · rw [if_neg hbe] at h
          cases hins : exec hash N fuel (.ins tmp b.get_key_value
              (bucket_for_hash N tmp (hash b.get_key_value.1))) with
          | none =>
            simp only [hins] at h
            exact Option.noConfusion h
          | some rr =>
            cases rr with
            | inr x =>
              simp only [hins] at h
              exact Option.noConfusion h
            | inl rr1 =>
              simp only [hins] at h
              have hInv1 : Inv hash N rr1.1 :=
                ih (.ins tmp b.get_key_value
                  (bucket_for_hash N tmp (hash b.get_key_value.1))) (Sum.inl rr1)
                  ⟨hok, rfl⟩ hins
              exact ih (.rei rr1.1 rest) r hInv1 h
    | reh m icount =>
      simp only [exec] at h
      cases hrei : exec hash N fuel
          (.rei (mkHopscotchMap N icount m.max_load_num m.max_load_den) m.buckets) with
      | none =>
        simp only [hrei] at h
        exact Option.noConfusion h
      | some rr =>
        cases rr with
        | inl x =>
          simp only [hrei] at h
          exact Option.noConfusion h
        | inr tmp =>
          simp only [hrei] at h
          have htmp : Inv hash N tmp :=
            ih (.rei (mkHopscotchMap N icount m.max_load_num m.max_load_den)
              m.buckets) (Sum.inr tmp)
              (Inv_mkHopscotchMap hash hN1 hN2 icount m.max_load_num
                m.max_load_den) hrei
          by_cases hemp : m.overflow_elements.isEmpty = true
          · rw [if_pos hemp] at h
            injection h with h
            subst h
            exact htmp
          · rw [if_neg hemp] at h
            injection h with h
            subst h
            show Inv hash N _
            refine Inv_set_overflow_flags _ _ ?_
            refine Inv.congr_buckets ?_ htmp
            rfl

/-- A terminating `insert_internal` call at the key's home preserves the
invariant. -/
theorem Inv_insert_internal {hash : Nat → Nat} {N : Nat} (hN1 : 1 ≤ N) (hN2 : N ≤ 62)
    {fuel : Nat} {m : HMap} {kv : Nat × Nat} {m' : HMap} {p : Pos} {b : Bool}
    (hinv : Inv hash N m)
    (h : insert_internal hash N fuel m kv (bucket_for_hash N m (hash kv.1))
      = some (m', p, b)) : Inv hash N m' := by
  unfold insert_internal at h
  cases hex : exec hash N fuel (.ins m kv (bucket_for_hash N m (hash kv.1))) with
  | none =>
    simp only [hex] at h
    exact Option.noConfusion h
  | some rr =>
    cases rr with
    | inr x =>
      simp only [hex] at h
      exact Option.noConfusion h
    | inl r0 =>
      simp only [hex] at h
      injection h with h
      have hr : r0.1 = m' := congrArg Prod.fst h
      rw [← hr]
      exact exec_inv hN1 hN2 fuel (.ins m kv (bucket_for_hash N m (hash kv.1)))
        (Sum.inl r0) ⟨hinv, rfl⟩ hex

/-- A terminating public `insert` preserves the invariant. -/
theorem Inv_insert {hash : Nat → Nat} {N : Nat} (hN1 : 1 ≤ N) (hN2 : N ≤ 62)
    {fuel : Nat} {m : HMap} {kv : Nat × Nat} {m' : HMap} {p : Pos} {b : Bool}
    (hinv : Inv hash N m) (h : insert hash N fuel m kv = some (m', p, b)) :
    Inv hash N m' := by
  unfold insert at h
  cases hfi : find_internal m kv.1 (bucket_for_hash N m (hash kv.1)) with
  | some p0 =>
    simp only [hfi] at h
    injection h with h
    have hm : m = m' := congrArg Prod.fst h
    rw [← hm]
    exact hinv
  | none =>
    simp only [hfi] at h
    exact Inv_insert_internal hN1 hN2 hinv h

/-- A terminating `try_emplace` preserves the invariant. -/
theorem Inv_try_emplace {hash : Nat → Nat} {N : Nat} (hN1 : 1 ≤ N) (hN2 : N ≤ 62)
    {fuel : Nat} {m : HMap} {k v : Nat} {m' : HMap} {p : Pos} {b : Bool}
    (hinv : Inv hash N m) (h : try_emplace hash N fuel m k v = some (m', p, b)) :
    Inv hash N m' := by
  unfold try_emplace at h
  cases hfi : find_internal m k (bucket_for_hash N m (hash k)) with
  | some p0 =>
    simp only [hfi] at h
    injection h with h
    have hm : m = m' := congrArg Prod.fst h
    rw [← hm]
    exact hinv
  | none =>
    simp only [hfi] at h
    exact Inv_insert_internal hN1 hN2 hinv h

/-- A terminating `operator[]` preserves the invariant. -/
theorem Inv_op_index {hash : Nat → Nat} {N : Nat} (hN1 : 1 ≤ N) (hN2 : N ≤ 62)
    {fuel : Nat} {m : HMap} {key : Nat} {m' : HMap}
    (hinv : Inv hash N m) (h : op_index hash N fuel m key = some m') :
    Inv hash N m' := by
  unfold op_index at h
  cases hf : find hash N m key with
  | some p0 =>
    simp only [hf] at h
    injection h with h
    rw [← h]
    exact hinv
  | none =>
    simp only [hf] at h
    cases hins : insert hash N fuel m (key, 0) with
    | none =>
      rw [hins] at h
      exact Option.noConfusion h
    | some r =>
      rw [hins] at h
      injection h with h
      rw [← h]
      exact Inv_insert hN1 hN2 hinv hins

/-- A terminating `rehash_internal` produces a valid map. -/
theorem Inv_rehash_internal {hash : Nat → Nat} {N : Nat} (hN1 : 1 ≤ N) (hN2 : N ≤ 62)
    {fuel : Nat} {m : HMap} {icount : Nat} {m' : HMap}
    (h : rehash_internal hash N fuel m icount = some m') : Inv hash N m' := by
  unfold rehash_internal at h
  cases hex : exec hash N fuel (.reh m icount) with
  | none =>
    simp only [hex] at h
    exact Option.noConfusion h
  | some rr =>
    cases rr with
    | inl x =>
      simp only [hex] at h
      exact Option.noConfusion h
    | inr m2 =>
      simp only [hex] at h
      injection h with h
      rw [← h]
      exact exec_inv hN1 hN2 fuel (.reh m icount) (Sum.inr m2) trivial hex

/-- A terminating public `rehash` produces a valid map. -/
theorem Inv_rehash {hash : Nat → Nat} {N : Nat} (hN1 : 1 ≤ N) (hN2 : N ≤ 62)
    {fuel : Nat} {m : HMap} {icount : Nat} {m' : HMap}
    (h : rehash hash N fuel m icount = some m') : Inv hash N m' :=
  Inv_rehash_internal hN1 hN2 h

/-- A terminating public `reserve` produces a valid map. -/
theorem Inv_reserve {hash : Nat → Nat} {N : Nat} (hN1 : 1 ≤ N) (hN2 : N ≤ 62)
    {fuel : Nat} {m : HMap} {icount : Nat} {m' : HMap}
    (h : reserve hash N fuel m icount = some m') : Inv hash N m' :=
  Inv_rehash_internal hN1 hN2 h

/-- The public `erase` preserves the invariant (all three paths: bucket hit,
overflow hit, miss). -/
theorem Inv_erase {hash : Nat → Nat} {N : Nat} {m : HMap} {key : Nat}
    (hinv : Inv hash N m) : Inv hash N (erase hash N m key).1 := by
  cases hfib : find_in_buckets m key (bucket_for_hash N m (hash key)) with
  | some j =>
    obtain ⟨hle, hbit, hkey⟩ := find_in_buckets_some hfib
    rw [get_neighborhood_infos_testBit] at hbit
    obtain ⟨-, -, kv₀, hkv₀, -⟩ := hinv.sound _ _ hbit
    rw [Nat.add_sub_cancel' hle] at hkv₀
    have hgk : (getBucket m j).get_key_value = kv₀ := by
      simp [Bucket.get_key_value, hkv₀]
    rw [hgk] at hkey
    have hkv₀' : (getBucket m j).key_value = some (key, kv₀.2) := by
      rw [hkv₀]
      exact congrArg some (Prod.ext hkey rfl)
    have hhome : bucket_for_hash N m (hash ((key, kv₀.2) : Nat × Nat).1)
        = bucket_for_hash N m (hash key) := rfl
    have he : erase hash N m key
        = (erase_from_bucket N m j (bucket_for_hash N m (hash key)), 1) := by
      unfold erase
      simp only [hfib]
    rw [he]
    exact (erase_from_bucket_spec hinv hkv₀' hhome).1
  | none =>
    cases hov : (getBucket m (bucket_for_hash N m (hash key))).has_overflow with
    | false =>
      have he : erase hash N m key = (m, 0) := by
        unfold erase
        simp only [hfib]
        rw [if_neg (by rw [hov]; simp)]
      rw [he]
      exact hinv
    | true =>
      cases hidx : m.overflow_elements.findIdx?
          (fun (w : Nat × Nat) => key == w.1) with
      | none =>
        have he : erase hash N m key = (m, 0) := by
          unfold erase
          simp only [hfib, hidx]
          rw [if_pos hov]
        rw [he]
        exact hinv
      | some idx =>
        have he : erase hash N m key
            = (erase_from_overflow hash N m idx
                (bucket_for_hash N m (hash key)), 1) := by
          unfold erase
          simp only [hfib, hidx, if_pos hov]
        rw [he]
        exact (erase_from_overflow_spec idx (bucket_for_hash N m (hash key)) hinv).1

/-- Every state reachable by the public operations satisfies the structural
invariant. -/
theorem Reachable_Inv {hash : Nat → Nat} {N : Nat} (hN1 : 1 ≤ N) (hN2 : N ≤ 62)
    {m : HMap} (h : Reachable hash N m) : Inv hash N m := by
  induction h with
  | init c => exact Inv_mkHopscotchMap hash hN1 hN2 c 9 10
  | set_mlf num den _ ih =>
    refine Inv.congr_buckets ?_ ih
    rfl
  | insert_step fuel kv _ hstep ih => exact Inv_insert hN1 hN2 ih hstep
  | try_emplace_step fuel k v _ hstep ih => exact Inv_try_emplace hN1 hN2 ih hstep
  | op_index_step fuel key _ hstep ih => exact Inv_op_index hN1 hN2 ih hstep
  | erase_step key _ ih => exact Inv_erase ih
  | clear_step _ ih => exact Inv_clear ih
  | rehash_step fuel icount _ hstep ih => exact Inv_rehash hN1 hN2 hstep
  | reserve_step fuel icount _ hstep ih => exact Inv_reserve hN1 hN2 hstep

/-- C1.  Neighborhood consistency in every reachable state: bit `b` of bucket `i`'s
neighborhood bitmap is set exactly when the bucket at `i + b` holds an entry whose
home bucket is `i`; and every stored entry sits at most `NeighborhoodSize - 1`
buckets after its home (neighborhoods never wrap: `home ≤ j < home + N`). -/
theorem claim_C1_neighborhood_invariant (hash : Nat → Nat) (N : Nat) (m : HMap)
    (hN1 : 1 ≤ N) (hN2 : N ≤ 62) (hre : Reachable hash N m) :
    (∀ i b, (getBucket m i).check_neighbor_presence b = true
        ↔ ∃ kv, (getBucket m (i + b)).key_value = some kv
            ∧ bucket_for_hash N m (hash kv.1) = i)
    ∧ (∀ j kv, (getBucket m j).key_value = some kv →
        bucket_for_hash N m (hash kv.1) ≤ j
          ∧ j - bucket_for_hash N m (hash kv.1) < N) := by
  have hinv := Reachable_Inv hN1 hN2 hre
  constructor
  · intro i b
    rw [check_neighbor_presence_eq_testBit]
    constructor
    · intro hbit
      obtain ⟨-, -, kv, h3, h4⟩ := hinv.sound i b hbit
      exact ⟨kv, h3, h4⟩
    · rintro ⟨kv, hkv, hhome⟩
      obtain ⟨h1, h2, h3⟩ := hinv.complete (i + b) kv hkv
      rw [hhome] at h3
      rw [Nat.add_sub_cancel_left] at h3
      exact h3
  · intro j kv hkv
    obtain ⟨h1, h2, -⟩ := hinv.complete j kv hkv
    exact ⟨h1, h2⟩

/-- Witness for the C1 theorem: its hypotheses hold at a concrete reachable
state. -/
theorem claim_C1_neighborhood_invariant_witness :
    (∀ i b, (getBucket (mkDefault 2 4) i).check_neighbor_presence b = true
        ↔ ∃ kv, (getBucket (mkDefault 2 4) (i + b)).key_value = some kv
            ∧ bucket_for_hash 2 (mkDefault 2 4) (constZeroHash kv.1) = i)
    ∧ (∀ j kv, (getBucket (mkDefault 2 4) j).key_value = some kv →
        bucket_for_hash 2 (mkDefault 2 4) (constZeroHash kv.1) ≤ j
          ∧ j - bucket_for_hash 2 (mkDefault 2 4) (constZeroHash kv.1) < 2) :=
  claim_C1_neighborhood_invariant constZeroHash 2 (mkDefault 2 4) (by decide)
    (by decide) (Reachable.init 4)

/-- Witness for the C2 theorem: its invariant hypothesis holds at a concrete map. -/
theorem claim_C2_find_refines_spec_witness :
    find constZeroHash 2 (mkDefault 2 4) 7 = findSpec constZeroHash 2 (mkDefault 2 4) 7 :=
  claim_C2_find_refines_spec constZeroHash 2 (mkDefault 2 4) 7
    (Inv_mkHopscotchMap constZeroHash (by decide) (by decide) 4 9 10)

/-- Witness for the C9 theorem: its invariant hypothesis holds at a concrete map. -/
theorem claim_C9_at_raises_iff_absent_witness :
    (at? constZeroHash 2 (mkDefault 2 4) 5 = none
        ↔ ∀ v, (5, v) ∉ contents (mkDefault 2 4))
    ∧ (∀ v, (5, v) ∈ contents (mkDefault 2 4)
        → at? constZeroHash 2 (mkDefault 2 4) 5 = some v) :=
  claim_C9_at_raises_iff_absent constZeroHash 2 (mkDefault 2 4) 5
    (WF_mkHopscotchMap constZeroHash (by decide) (by decide) 4 9 10)

/-- Witness for the C8 theorem: its invariant hypothesis holds at a concrete map. -/
theorem claim_C8_erase_by_key_witness :
    (∀ v, (3, v) ∈ contents (mkDefault 2 4) →
        (erase constZeroHash 2 (mkDefault 2 4) 3).2 = 1
        ∧ (erase constZeroHash 2 (mkDefault 2 4) 3).1.nb_elements
            = (mkDefault 2 4).nb_elements - 1
        ∧ (∀ kv', kv' ∈ contents (erase constZeroHash 2 (mkDefault 2 4) 3).1
            ↔ kv' ∈ contents (mkDefault 2 4) ∧ kv'.1 ≠ 3)
        ∧ find constZeroHash 2 (erase constZeroHash 2 (mkDefault 2 4) 3).1 3 = none)
    ∧ ((∀ v, (3, v) ∉ contents (mkDefault 2 4))
        → erase constZeroHash 2 (mkDefault 2 4) 3 = (mkDefault 2 4, 0)) :=
  claim_C8_erase_by_key constZeroHash 2 (mkDefault 2 4) 3
    (WF_mkHopscotchMap constZeroHash (by decide) (by decide) 4 9 10)

end Hopscotch
